import Mathlib

/-!
# Verification of the poolqueue concurrency library (sequential semantics)

This file is a shallow embedding of the poolqueue library, translated from
`src/Promise.cpp`, `src/Promise.hpp`, `src/Promise_detail.hpp`,
`src/ThreadPool_detail.hpp`, `src/ThreadPool.hpp`, `src/Delay.cpp` and
`src/Delay.hpp`.  The embedding gives the sequential (single-thread)
semantics of the promise engine: promise shared states (`Pimpl`) live in a
heap indexed by natural numbers, the mutually recursive
`Pimpl::settle` / `Pimpl::link` pair is modelled with an explicit fuel
parameter, and exceptions thrown by the C++ code are modelled by an
`Except` result.  Values are modelled by a small closed universe `Val`
mirroring the dynamically typed `Promise::Value` (`detail::Any`), with
`tyOf` playing the role of `std::type_info` comparison.
-/

/-- Runtime type tags, mirroring `std::type_info` comparisons performed by
the C++ code (`typeid(detail::Any)`, `typeid(void)`, `typeid(Promise)`,
`typeid(Unset)`, `typeid(std::exception_ptr)` and payload types). -/
inductive Ty where
  | anyT | voidT | promiseT | unsetT | intT | strT | vecT | excT | nullT
deriving DecidableEq, Repr

/-- The kinds of `std::logic_error` thrown by the promise machinery. -/
inductive LErr where
  | alreadySettled      -- "Promise already settled"
  | dependentSettle     -- "invalid operation on dependent Promise"
  | closedE             -- "Promise is closed"
  | typeMismatchLink    -- "type mismatch: ..." thrown by link()
deriving DecidableEq, Repr

/-- Errors carried inside a rejected value (`std::exception_ptr` contents). -/
inductive Err where
  | user (n : Int)      -- an arbitrary user exception
  | badCast             -- `Promise::bad_cast` (TypeMismatch)
  | cancelled           -- `Delay::cancelled`
  | logic (e : LErr)    -- a machinery logic_error captured by a callback
deriving DecidableEq, Repr

/-- Errors that escape a model-level call (C++ exceptions that propagate out
of `settle` / `link` / `then`).  `outOfFuel` is an artifact of the fuel-based
termination of the model and never occurs for sufficiently large fuel. -/
inductive PErr where
  | logic (e : LErr)
  | badCastThrown       -- a bad_cast re-thrown by the bad-cast handler
  | outOfFuel
deriving DecidableEq, Repr

/-- The dynamically typed value slot `Promise::Value` (`detail::Any`).
`unset` is the private `Unset` marker type; `exc` is a stored
`std::exception_ptr` (a rejection); `vec` is `std::vector<Value>` used by
`Promise::all`; `nullV` is `detail::Null` returned by combinator callbacks. -/
inductive Val where
  | unset
  | int (x : Int)
  | str (s : String)
  | vec (vs : List Val)
  | exc (e : Err)
  | nullV
deriving Repr

/-- `Value::type()`: the runtime type tag of a stored value. -/
def tyOf : Val → Ty
  | .unset => .unsetT
  | .int _ => .intT
  | .str _ => .strT
  | .vec _ => .vecT
  | .exc _ => .excT
  | .nullV => .nullT

/-- `Value::cast<std::exception_ptr>` when the value holds an exception. -/
def excOf : Val → Option Err
  | .exc e => some e
  | _ => none

/-- Outcome of invoking a callback wrapper (`detail::CallbackWrapper`):
it returns a value, returns a `Promise`, throws an ordinary exception, or
throws `Promise::bad_cast` (i.e. the declared argument type did not match
the actual value type). -/
inductive InvOut where
  | ret (v : Val)
  | retPromise (q : Nat)
  | raised (e : Err)
  | raisedBadCast
deriving Repr

/-- Pure user callback bodies used in the scenarios of the specification:
the identity, integer arithmetic, constants, throwing a fixed exception and
returning an existing `Promise`. -/
inductive PureFn where
  | idF
  | addConst (c : Int)
  | mulConst (c : Int)
  | constV (w : Val)
  | throwE (e : Err)
  | retP (q : Nat)
deriving Repr

/-- Callback bodies.  Besides pure user functions there are the stateful
closures used internally by the library: the fulfil/reject lambdas of
`Promise::all` (which mutate a shared `Context` and may settle the combined
promise) and the result-flag lambda of `Delay`'s `cancel`. -/
inductive FnSpec where
  | pure (f : PureFn)
  | allFulfil (cid k : Nat)
  | allReject (cid : Nat)
  | setFlagFalse (fid : Nat)
deriving Repr

/-- `detail::CallbackWrapper`: a callback body together with its declared
argument type, result type and whether the argument is taken by rvalue
reference (`hasRvalueArgument`). -/
structure Callback where
  fn : FnSpec
  argType : Ty
  resultType : Ty
  rvalue : Bool := false
deriving Repr

/-- Observable events of a run: callback invocations (used to reason about
which callbacks fire) and consultations of the global bad-cast handler. -/
inductive Event where
  | invoke (i : Nat) (isFulfil : Bool) (arg : Val)
  | badCastCall
deriving Repr

/-- `Promise::Pimpl`: the shared state of one promise. `settledFlag` models
`settled_ != std::thread::id()`. -/
structure Pimpl where
  upstream : Option Nat := none
  downstream : List Nat := []
  value : Val := .unset
  closed : Bool := false
  settledFlag : Bool := false
  undelivered : Bool := false
  onFulfil : Option Callback := none
  onReject : Option Callback := none
deriving Repr

/-- The state of a freshly constructed `Pimpl` (also used as the
out-of-range default of heap reads). -/
def dPimpl : Pimpl := {}

/-- The shared `Context` allocated by `Promise::all`: the slot vector, the
remaining count, the rejected flag, and the promise to settle. -/
structure AllCtx where
  values : List Val := []
  count : Nat := 0
  rejected : Bool := false
  target : Nat := 0
deriving Repr

def dCtx : AllCtx := {}

/-- The global state of the model: the promise heap (ids are list indices),
the `Promise::all` contexts, boolean cells captured by reference by
closures (`Delay`'s `result` flag), and the event log. -/
structure Heap where
  ps : List Pimpl := []
  ctxs : List AllCtx := []
  flags : List Bool := []
  log : List Event := []
deriving Repr

def Heap.get (h : Heap) (i : Nat) : Pimpl := h.ps.getD i dPimpl

def Heap.set (h : Heap) (i : Nat) (f : Pimpl → Pimpl) : Heap :=
  { h with ps := h.ps.set i (f (h.ps.getD i dPimpl)) }

def Heap.getCtx (h : Heap) (c : Nat) : AllCtx := h.ctxs.getD c dCtx

def Heap.setCtx (h : Heap) (c : Nat) (f : AllCtx → AllCtx) : Heap :=
  { h with ctxs := h.ctxs.set c (f (h.ctxs.getD c dCtx)) }

def Heap.logEv (h : Heap) (e : Event) : Heap := { h with log := h.log ++ [e] }

/-- Evaluation of pure callback bodies.  The fall-through cases of
`addConst` / `mulConst` are unreachable when the declared argument type is
`intT`, since the wrapper casts the argument first. -/
def evalPure : PureFn → Val → InvOut
  | .idF, v => .ret v
  | .addConst c, v => match v with | .int x => .ret (.int (x + c)) | w => .ret w
  | .mulConst c, v => match v with | .int x => .ret (.int (x * c)) | w => .ret w
  | .constV w, _ => .ret w
  | .throwE e, _ => if e = .badCast then .raisedBadCast else .raised e
  | .retP q, _ => .retPromise q

/-- The value a pure callback body computes, as a total function (used to
state theorems about chains of callbacks). -/
def pureApply : PureFn → Val → Val
  | .idF, v => v
  | .addConst c, v => match v with | .int x => .int (x + c) | w => w
  | .mulConst c, v => match v with | .int x => .int (x * c) | w => w
  | .constV w, _ => w
  | .throwE _, v => v
  | .retP _, v => v

def fnApply : FnSpec → Val → Val
  | .pure f, v => pureApply f v
  | _, v => v

/-- The intermediate `cbValue` of `Pimpl::settle`: unset when no callback
ran, a plain value, or a returned `Promise`. -/
inductive CbVal where
  | unsetC
  | valC (v : Val)
  | promiseC (q : Nat)
deriving Repr

/-- Lines 258–288 of `Promise.cpp`: clear `upstream_`, store the settled
value, set `settled_`, and — exactly when there are no dependents and the
value holds an exception — set `undeliveredException_`. -/
def commitAndFlag (h : Heap) (i : Nat) (nv : Val) : Heap :=
  h.set i fun p =>
    { p with upstream := none, value := nv, settledFlag := true,
             undelivered :=
               if p.downstream = [] ∧ tyOf nv = .excT then true else p.undelivered }

mutual

/-- `Promise::Pimpl::settle(Value&&, bool direct)` (Promise.cpp lines
212–299), sequential semantics.  `hT` is whether the installed bad-cast
handler throws (the default handler re-throws, i.e. `hT = true`). -/
def settleF (hT : Bool) (fuel : Nat) (h : Heap) (i : Nat) (v : Val)
    (direct : Bool) : Except PErr Unit × Heap :=
  match fuel with
  | 0 => (.error .outOfFuel, h)
  | fuel + 1 =>
    let p := h.get i
    -- line 213: if (direct && value_.type() != typeid(Unset)) throw
    if direct ∧ ¬ tyOf p.value = .unsetT then (.error (.logic .alreadySettled), h)
    else
      match dispatchF hT fuel h i v with
      | (.error e, h2) => (.error e, h2)
      | (.ok (.promiseC q), h2) =>
        -- lines 290–298: callback returned a Promise: discard callbacks and
        -- make the returned promise the new upstream via link
        let h3 := h2.set i fun p => { p with onFulfil := none, onReject := none }
        linkF hT fuel h3 q i
      | (.ok cbv, h2) =>
        let p2 := h2.get i
        -- line 256: if (direct && upstream_) throw
        if direct ∧ p2.upstream.isSome then (.error (.logic .dependentSettle), h2)
        else
          let nv := match cbv with
            | .valC cv => cv
            | _ => v
          let h3 := commitAndFlag h2 i nv
          if p2.downstream = [] then (.ok (), h3)
          else propagateF hT fuel h3 i p2.downstream
termination_by structural fuel

/-- Lines 217–243 of `Promise.cpp`: pass the value through the matching
callback (onFulfil for a non-exception, onReject for an exception),
catching thrown exceptions; a `bad_cast` from the fulfil dispatch is first
offered to the bad-cast handler, which either throws (escaping settle) or
returns (capturing `Rejected(bad_cast)`). -/
def dispatchF (hT : Bool) (fuel : Nat) (h : Heap) (i : Nat) (v : Val) :
    Except PErr CbVal × Heap :=
  if ¬ tyOf v = .excT then
    match (h.get i).onFulfil with
    | some cb =>
      match fuel with
      | 0 => (.error .outOfFuel, h)
      | fuel + 1 =>
        let h1 := h.logEv (.invoke i true v)
        match invokeCb hT fuel h1 cb v with
        | (.ok (.ret rv), h2) => (.ok (.valC rv), h2)
        | (.ok (.retPromise q), h2) => (.ok (.promiseC q), h2)
        | (.ok (.raised e), h2) => (.ok (.valC (.exc e)), h2)
        | (.ok .raisedBadCast, h2) =>
          -- catch (const bad_cast&): offer to the handler first
          let h3 := h2.logEv .badCastCall
          if hT then (.error .badCastThrown, h3)
          else (.ok (.valC (.exc .badCast)), h3)
        | (.error e, h2) => (.error e, h2)
    | none => (.ok .unsetC, h)
  else
    match (h.get i).onReject with
    | some cb =>
      match fuel with
      | 0 => (.error .outOfFuel, h)
      | fuel + 1 =>
        let h1 := h.logEv (.invoke i false v)
        match invokeCb hT fuel h1 cb v with
        | (.ok (.ret rv), h2) => (.ok (.valC rv), h2)
        | (.ok (.retPromise q), h2) => (.ok (.promiseC q), h2)
        | (.ok (.raised e), h2) => (.ok (.valC (.exc e)), h2)
        | (.ok .raisedBadCast, h2) => (.ok (.valC (.exc .badCast)), h2)
        | (.error e, h2) => (.error e, h2)
    | none => (.ok .unsetC, h)
termination_by structural fuel

/-- Lines 274–278 of `Promise.cpp`: propagate the parent's settled value to
each dependent in attachment order; an exception thrown from a child's
settle propagates out. -/
def propagateF (hT : Bool) (fuel : Nat) (h : Heap) (par : Nat)
    (cs : List Nat) : Except PErr Unit × Heap :=
  match fuel, cs with
  | _, [] => (.ok (), h)
  | 0, _ :: _ => (.error .outOfFuel, h)
  | fuel + 1, c :: cs =>
    match settleF hT fuel h c (h.get par).value false with
    | (.ok _, h2) => propagateF hT fuel h2 par cs
    | (.error e, h2) => (.error e, h2)
termination_by structural fuel

/-- `Promise::Pimpl::link` (Promise.cpp lines 112–209), sequential
semantics: attach dependent `j` to promise `i`. -/
def linkF (hT : Bool) (fuel : Nat) (h : Heap) (i : Nat) (j : Nat) :
    Except PErr Unit × Heap :=
  match fuel with
  | 0 => (.error .outOfFuel, h)
  | fuel + 1 =>
    -- line 113: next->upstream_ = this
    let h0 := h.set j fun q => { q with upstream := some i }
    let p := h0.get i
    let q := h0.get j
    let rv : Bool := match q.onFulfil with
      | some cb => cb.rvalue
      | none => false
    if ¬ p.settledFlag then
      -- lines 121–166: not settled: early type check, append dependent,
      -- and close on an rvalue-argument onFulfil
      let oType : Ty := match p.onFulfil with
        | some cb => cb.resultType
        | none => match p.onReject with
          | some cb => cb.resultType
          | none => .anyT
      let iType : Ty := match q.onFulfil with
        | some cb => cb.argType
        | none => .voidT
      if ¬ oType = iType ∧ ¬ oType = .anyT ∧ ¬ oType = .promiseT ∧
         ¬ iType = .anyT ∧ ¬ iType = .voidT then
        (.error (.logic .typeMismatchLink), h0)
      else
        let h1 := h0.set i fun p => { p with downstream := p.downstream ++ [j] }
        let h2 := if rv then h1.set i fun p => { p with closed := true } else h1
        (.ok (), h2)
    else
      -- lines 167–208: already settled: clear the undelivered flag if the
      -- value is an exception, close on rvalue, then settle the dependent
      -- with this promise's value
      let h1 := if tyOf p.value = .excT then
          h0.set i fun p => { p with undelivered := false }
        else h0
      let h2 := if rv then h1.set i fun p => { p with closed := true } else h1
      settleF hT fuel h2 j (h2.get i).value false
termination_by structural fuel

/-- Invocation of a callback wrapper.  The wrapper first casts the value to
the declared argument type (no cast for `Any` / `void` arguments); a failed
cast raises `bad_cast`.  The stateful bodies used by `Promise::all` and
`Delay::cancel` mutate their shared context and may settle another promise;
a machinery `logic_error` escaping that inner settle is an ordinary
exception from the point of view of the invoking settle. -/
def invokeCb (hT : Bool) (fuel : Nat) (h : Heap) (cb : Callback) (v : Val) :
    Except PErr InvOut × Heap :=
  if ¬ (cb.argType = .anyT ∨ cb.argType = .voidT ∨ tyOf v = cb.argType) then
    (.ok .raisedBadCast, h)
  else
    match cb.fn with
    | .pure f => (.ok (evalPure f v), h)
    | .allFulfil cid k =>
      match fuel with
      | 0 => (.error .outOfFuel, h)
      | fuel + 1 =>
        -- context->values[index] = value; if (count.fetch_sub(1) == 1) settle
        let ctx := h.getCtx cid
        let h1 := h.setCtx cid fun c => { c with values := c.values.set k v }
        if ctx.count = 1 then
          let h2 := h1.setCtx cid fun c => { c with count := 0 }
          match settleF hT fuel h2 ctx.target (.vec ((h1.getCtx cid).values)) true with
          | (.ok _, h3) => (.ok (.ret .nullV), h3)
          | (.error (.logic l), h3) => (.ok (.raised (.logic l)), h3)
          | (.error .badCastThrown, h3) => (.ok .raisedBadCast, h3)
          | (.error .outOfFuel, h3) => (.error .outOfFuel, h3)
        else
          let h2 := h1.setCtx cid fun c => { c with count := c.count - 1 }
          (.ok (.ret .nullV), h2)
    | .allReject cid =>
      match fuel with
      | 0 => (.error .outOfFuel, h)
      | fuel + 1 =>
        -- if (!rejected.exchange(true)) p.settle(e)
        let ctx := h.getCtx cid
        if ctx.rejected then (.ok (.ret .nullV), h)
        else
          let h1 := h.setCtx cid fun c => { c with rejected := true }
          match settleF hT fuel h1 ctx.target v true with
          | (.ok _, h2) => (.ok (.ret .nullV), h2)
          | (.error (.logic l), h2) => (.ok (.raised (.logic l)), h2)
          | (.error .badCastThrown, h2) => (.ok .raisedBadCast, h2)
          | (.error .outOfFuel, h2) => (.error .outOfFuel, h2)
    | .setFlagFalse fid =>
      (.ok (.ret .nullV), { h with flags := h.flags.set fid false })

termination_by structural fuel
end

/-- `Promise::then` (Promise.hpp lines 163–177): fail when closed, else
construct a dependent promise holding the callbacks and attach it. -/
def thenF (hT : Bool) (fuel : Nat) (h : Heap) (i : Nat)
    (onF onR : Option Callback) : Except PErr Nat × Heap :=
  if (h.get i).closed then (.error (.logic .closedE), h)
  else
    let j := h.ps.length
    let h1 := { h with ps := h.ps ++ [{ dPimpl with onFulfil := onF, onReject := onR }] }
    match linkF hT fuel h1 i j with
    | (.ok _, h2) => (.ok j, h2)
    | (.error e, h2) => (.error e, h2)

/-- `Promise::close`. -/
def closeF (h : Heap) (i : Nat) : Heap := h.set i fun p => { p with closed := true }

/-- `Promise::Promise()` (with optional callbacks): allocate a fresh
non-dependent shared state and return its id. -/
def newPromise (h : Heap) (onF onR : Option Callback) : Nat × Heap :=
  (h.ps.length, { h with ps := h.ps ++ [{ dPimpl with onFulfil := onF, onReject := onR }] })

/-- `Promise::Promise(Promise&&)` (Promise.cpp lines 310–313): the new
handle takes over the source's shared state and the source is left with a
freshly constructed state.  Returns (state of the new promise, state now
referenced by the source, heap). -/
def movePromise (h : Heap) (src : Nat) : Nat × Nat × Heap :=
  let fresh := h.ps.length
  (src, fresh, { h with ps := h.ps ++ [dPimpl] })

/-- `Promise::Pimpl::~Pimpl` (Promise.cpp lines 90–97): on destruction of
the last handle, the undelivered-error handler is invoked with the stored
exception exactly when the undelivered flag is set.  The returned option is
the (single) argument the handler receives, `none` when it is not called. -/
def destroyCall (p : Pimpl) : Option Err :=
  if p.undelivered then excOf p.value else none

/-- The attachment loop of `Promise::all` (Promise.hpp lines 267–282): for
input `k`, attach a dependent whose fulfil lambda writes slot `k` and whose
reject lambda performs the first-rejection settle.  Both lambdas take their
arguments by const reference (`const Value&` / `const exception_ptr&`) and
return `detail::Null`. -/
def attachAll (hT : Bool) (fuel : Nat) (h : Heap) (p cid : Nat) :
    List Nat → Nat → Except PErr Nat × Heap
  | [], _ => (.ok p, h)
  | i :: rest, k =>
    match thenF hT fuel h i
        (some { fn := .allFulfil cid k, argType := .anyT, resultType := .nullT })
        (some { fn := .allReject cid, argType := .excT, resultType := .nullT }) with
    | (.ok _, h1) => attachAll hT fuel h1 p cid rest (k + 1)
    | (.error e, h1) => (.error e, h1)

/-- `Promise::all` (Promise.hpp lines 250–290): a fresh promise `p`; for an
empty range settle `p` immediately with an empty vector; otherwise allocate
the shared context and attach the lambdas to every input. -/
def mkAll (hT : Bool) (fuel : Nat) (h : Heap) (inputs : List Nat) :
    Except PErr Nat × Heap :=
  let (p, h1) := newPromise h none none
  if inputs.isEmpty then
    match settleF hT fuel h1 p (.vec []) true with
    | (.ok _, h2) => (.ok p, h2)
    | (.error e, h2) => (.error e, h2)
  else
    let n := inputs.length
    let cid := h1.ctxs.length
    let h2 := { h1 with ctxs := h1.ctxs ++
      [{ values := List.replicate n Val.unset, count := n, rejected := false, target := p }] }
    attachAll hT fuel h2 p cid inputs 0

/-- Settle a list of root promises in sequence (a test-driver loop: each
entry gives a promise id and a value; an exception value rejects it). -/
def runOps (hT : Bool) (fuel : Nat) (h : Heap) :
    List (Nat × Val) → Except PErr Unit × Heap
  | [] => (.ok (), h)
  | (i, v) :: ops =>
    match settleF hT fuel h i v true with
    | (.ok _, h1) => runOps hT fuel h1 ops
    | (.error e, h1) => (.error e, h1)

/-- A chain builder: starting from a fresh root promise, repeatedly call
`then` with the given fulfil callbacks (no reject callbacks), each time on
the promise produced by the previous step.  Returns the id of the final
dependent together with the heap. -/
def buildChainAux (hT : Bool) : List Callback → Nat × Heap → Nat × Heap
  | [], st => st
  | cb :: cbs, (i, h) =>
    match thenF hT 2 h i (some cb) none with
    | (.ok j, h1) => buildChainAux hT cbs (j, h1)
    | (.error _, h1) => (i, h1)

def initHeap : Heap := { ps := [dPimpl] }

def buildChain (hT : Bool) (cbs : List Callback) : Nat × Heap :=
  buildChainAux hT cbs (0, initHeap)

/-- Remove the first entry of the delay queue whose promise is identical to
`p` (the linear `std::find_if` followed by `erase` in `Pimpl::cancel`),
returning the remaining queue when found. -/
def removeFirst (dq : List (Nat × Nat)) (p : Nat) : Option (List (Nat × Nat)) :=
  match dq with
  | [] => none
  | ent :: rest =>
    if ent.2 = p then some rest
    else (removeFirst rest p).map fun l => ent :: l

/-- `Delay`'s `Pimpl::cancel` (Delay.cpp lines 69–95), sequential
semantics.  A fresh `target` promise gets an `except` dependent whose
callback clears the result flag; if an entry for `p` is found it is swapped
with `target` and erased, and the subsequent reject propagates `e` into
`p`'s chain; otherwise the reject fires the flag-clearing callback.  The
delay queue is passed and returned explicitly (pairs of deadline and
promise id). -/
def delayCancel (hT : Bool) (fuel : Nat) (h : Heap) (dq : List (Nat × Nat))
    (p : Nat) (e : Err) : Except PErr Bool × Heap × List (Nat × Nat) :=
  let fid := h.flags.length
  let hA := { h with flags := h.flags ++ [true] }
  let (t, hB) := newPromise hA none none
  match thenF hT fuel hB t none
      (some { fn := .setFlagFalse fid, argType := .excT, resultType := .nullT }) with
  | (.error er, hC) => (.error er, hC, dq)
  | (.ok _, hC) =>
    match removeFirst dq p with
    | some dq2 =>
      -- target.swap(i->second); queue_.erase(i); target.reject(e)
      match settleF hT fuel hC p (.exc e) true with
      | (.ok _, hD) => (.ok (hD.flags.getD fid true), hD, dq2)
      | (.error er, hD) => (.error er, hD, dq2)
    | none =>
      -- no match: target is still the fresh promise; reject fires the flag
      match settleF hT fuel hC t (.exc e) true with
      | (.ok _, hD) => (.ok (hD.flags.getD fid true), hD, dq)
      | (.error er, hD) => (.error er, hD, dq)

/-- `Delay::cancel` with the exception argument omitted: the default is the
built-in `Delay::cancelled` exception (Delay.hpp line 68). -/
def delayCancelDefault (hT : Bool) (fuel : Nat) (h : Heap)
    (dq : List (Nat × Nat)) (p : Nat) : Except PErr Bool × Heap × List (Nat × Nat) :=
  delayCancel hT fuel h dq p .cancelled

/-! ## ConcurrentQueue (ThreadPool_detail.hpp lines 48–129)

Nodes live in an arena (allocation appends, deletion just unlinks — freed
nodes become unreachable).  `next = none` models a null pointer and
`next = some j` a pointer to node `j`; the empty queue is encoded by the
head sentinel's `next` pointing to itself. -/

structure QNode where
  value : Nat
  next : Option Nat
deriving DecidableEq, Repr

structure CQ where
  nodes : List QNode
  head : Nat
  tail : Nat
deriving DecidableEq, Repr

def dQNode : QNode := { value := 0, next := none }

def CQ.getNode (q : CQ) (i : Nat) : QNode := q.nodes.getD i dQNode

def CQ.setNext (q : CQ) (i : Nat) (nx : Option Nat) : CQ :=
  { q with nodes := q.nodes.set i { q.nodes.getD i dQNode with next := nx } }

/-- The constructor: a single sentinel node whose `next` points to itself
(the empty-queue condition), with `head_ = tail_` pointing at it. -/
def CQ.init : CQ :=
  { nodes := [{ value := 0, next := some 0 }], head := 0, tail := 0 }

/-- `ConcurrentQueue::push` (lines 81–89): allocate a node, atomically
exchange the tail's `next` with it (the old `next` is non-null exactly when
the queue was empty), advance `tail_`.  Returns (queue, wasEmpty). -/
def CQ.push (q : CQ) (v : Nat) : CQ × Bool :=
  let node := q.nodes.length
  let q1 := { q with nodes := q.nodes ++ [({ value := v, next := none } : QNode)] }
  let old := q1.getNode q.tail |>.next
  let q2 := q1.setNext q.tail (some node)
  ({ q2 with tail := node }, ¬ old = none)

/-- `ConcurrentQueue::pop` (lines 94–115): if the head's `next` is non-null
and not the head itself, take that node's value, advance `head_`, and
restore the self-loop via compare-exchange when the new head's `next` is
null.  Returns (queue, popped value or `none` when empty). -/
def CQ.pop (q : CQ) : CQ × Option Nat :=
  match (q.getNode q.head).next with
  | some j =>
    if ¬ j = q.head then
      let result := (q.getNode j).value
      let q1 := { q with head := j }
      -- head_->next_.compare_exchange_strong(null, head_)
      let q2 := if (q1.getNode j).next = none then q1.setNext j (some j) else q1
      (q2, some result)
    else (q, none)
  | none => (q, none)

/-! ## ThreadPool thread-count control (ThreadPool.hpp lines 159–163, 63–65)

Only the thread-count bookkeeping is modelled: `setThreadCountImpl`
grows/shrinks the worker set to exactly `n` threads (its trailing asserts
state `threads_.size() == n`). -/

structure Pool where
  threads : Nat
deriving DecidableEq, Repr

inductive PoolErr where
  | invalidArgument
deriving DecidableEq, Repr

def setThreadCountImpl (p : Pool) (n : Nat) : Pool := { p with threads := n }

/-- `ThreadPoolT::setThreadCount` (lines 159–163): `if (n <= 0) throw
std::invalid_argument(...)` before any state is touched. -/
def setThreadCount (p : Pool) (n : Nat) : Except PoolErr Unit × Pool :=
  if n ≤ 0 then (.error .invalidArgument, p)
  else (.ok (), setThreadCountImpl p n)

/-- `~ThreadPoolT` (lines 63–65): the destructor shrinks to zero through
`setThreadCountImpl`, bypassing the argument check. -/
def poolDestroy (p : Pool) : Pool := setThreadCountImpl p 0

/-! ## Specification-level definitions used by the theorems -/

/-- The fulfil lambda of `Promise::all` as a callback record: it takes
`const Value&` (type `Any`), returns `detail::Null`, not by rvalue. -/
def aFulfilCb (cid k : Nat) : Callback :=
  { fn := .allFulfil cid k, argType := .anyT, resultType := .nullT }

/-- The reject lambda of `Promise::all` as a callback record. -/
def aRejectCb (cid : Nat) : Callback :=
  { fn := .allReject cid, argType := .excT, resultType := .nullT }

/-- The value with which input `k` has been settled in an operation
sequence, if any (first settle wins, as later direct settles throw). -/
def lookupV (applied : List (Nat × Val)) (k : Nat) : Option Val :=
  (applied.find? fun pr => decide (pr.1 = k)).map (·.2)

/-- The first rejection value in an operation sequence. -/
def firstRejectV (applied : List (Nat × Val)) : Option Val :=
  (applied.find? fun pr => decide (tyOf pr.2 = .excT)).map (·.2)

/-- How many of the operations fulfilled (settled with a non-exception). -/
def fulfilCount (applied : List (Nat × Val)) : Nat :=
  (applied.filter fun pr => decide (¬ tyOf pr.2 = .excT)).length

/-- The content of slot `k` of the `Promise::all` context after the given
operations: the fulfilled value, or `unset` if input `k` rejected or has
not settled. -/
def slotVal (applied : List (Nat × Val)) (k : Nat) : Val :=
  match lookupV applied k with
  | some v => if tyOf v = .excT then .unset else v
  | none => .unset

def slotsOf (N : Nat) (applied : List (Nat × Val)) : List Val :=
  (List.range N).map (slotVal applied)

/-- The shared state of input `k` (of `N`) before it settles: a bare root
whose only dependent is the attached combinator promise `N+1+k`. -/
def freshInput (N k : Nat) : Pimpl :=
  { dPimpl with downstream := [N + 1 + k] }

/-- The shared state of input `k` after it settled with `v`. -/
def doneInput (N k : Nat) (v : Val) : Pimpl :=
  { freshInput N k with value := v, settledFlag := true }

/-- The dependent attached to input `k` by `Promise::all`, unsettled. -/
def freshDep (k : Nat) : Pimpl :=
  { dPimpl with onFulfil := some (aFulfilCb 0 k), onReject := some (aRejectCb 0),
                upstream := some k }

/-- The dependent attached to input `k` by `Promise::all`, after its
callback ran (returning `detail::Null`). -/
def doneDep (k : Nat) : Pimpl :=
  { dPimpl with onFulfil := some (aFulfilCb 0 k), onReject := some (aRejectCb 0),
                value := .nullV, settledFlag := true }

/-- The combined promise after the first rejection settled it. -/
def rejTarget (v : Val) : Pimpl :=
  { dPimpl with value := v, settledFlag := true, undelivered := true }

/-- The combined promise after all inputs fulfilled. -/
def fulTarget (vs : List Val) : Pimpl :=
  { dPimpl with value := .vec vs, settledFlag := true }

/-- Invariant of the `Promise::all` scenario with `N` fresh root inputs
`0..N-1`, combined promise `N`, context `0` and dependent `N+1+k` for input
`k`, after the settle operations `applied` have been applied in order. -/
structure AInv (N : Nat) (applied : List (Nat × Val)) (h : Heap) : Prop where
  appNodup : (applied.map Prod.fst).Nodup
  appLt : ∀ pr ∈ applied, pr.1 < N
  lenPs : h.ps.length = 2 * N + 1
  ctxEq : h.ctxs = [{ values := slotsOf N applied, count := N - fulfilCount applied,
                      rejected := (firstRejectV applied).isSome, target := N }]
  target : (match firstRejectV applied with
    | some v => h.get N = rejTarget v
    | none =>
      if fulfilCount applied = N then h.get N = fulTarget (slotsOf N applied)
      else h.get N = dPimpl)
  inputs : ∀ k, k < N →
    (match lookupV applied k with
     | some v => h.get k = doneInput N k v
     | none => h.get k = freshInput N k)
  deps : ∀ k, k < N →
    (match lookupV applied k with
     | some _ => h.get (N + 1 + k) = doneDep k
     | none => h.get (N + 1 + k) = freshDep k)

/-- The `Promise::all` test scenario: `N` fresh root promises and the
combinator applied to all of them. -/
def allScenario (hT : Bool) (N : Nat) : Except PErr Nat × Heap :=
  mkAll hT 2 { ps := List.replicate N dPimpl } (List.range N)

/-- A well-behaved user callback for chain theorems: argument taken as
`Any` (so no cast can fail), not by rvalue, and a pure body that returns
`pureApply` of its argument and maps non-exceptions to non-exceptions. -/
def goodCb (cb : Callback) : Prop :=
  cb.argType = .anyT ∧ cb.rvalue = false ∧
  ∃ pf, cb.fn = .pure pf ∧ (∀ v, evalPure pf v = .ret (pureApply pf v)) ∧
    (∀ v, ¬ tyOf v = .excT → ¬ tyOf (pureApply pf v) = .excT)

/-- The value a chain of callbacks computes from an initial value. -/
def chainEval (cbs : List Callback) (v : Val) : Val :=
  cbs.foldl (fun w cb => fnApply cb.fn w) v

/-- The shared state of an unsettled chain dependent. -/
def chainNode (cb : Callback) (down : List Nat) (up : Nat) : Pimpl :=
  { dPimpl with onFulfil := some cb, downstream := down, upstream := some up }

/-- Shape of a dependent at position `i` of a linear chain. -/
def builtNode (h : Heap) (i : Nat) (cb : Callback) (down : List Nat) : Prop :=
  i < h.ps.length ∧ h.get i = chainNode cb down (i - 1)

/-- Shape of the dependents `i, i+1, …` of a linear chain carrying the
given callbacks, each linked to its successor. -/
def builtChainFrom (h : Heap) : Nat → List Callback → Prop
  | _, [] => True
  | i, cb :: cbs =>
    builtNode h i cb (if cbs.isEmpty then [] else [i + 1]) ∧
    builtChainFrom h (i + 1) cbs

/-- The full invariant of the chain built by `buildChain`: a bare root at
index 0 and the dependents carrying the callbacks after it. -/
def builtChain (h : Heap) (cbs : List Callback) : Prop :=
  h.ps.length = cbs.length + 1 ∧
  h.get 0 = { dPimpl with downstream := if cbs.isEmpty then [] else [1] } ∧
  builtChainFrom h 1 cbs

/-- The identity callback taking `const Value&`. -/
def idCb : Callback := { fn := .pure .idF, argType := .anyT, resultType := .anyT }

/-- No duplicates in a list of node ids. -/
def nodupB : List Nat → Bool
  | [] => true
  | x :: xs => ¬ xs.contains x ∧ nodupB xs

/-- The links of a concurrent-queue chain: starting at node `i`, the listed
nodes are threaded through `next` pointers and the last one is the tail
with a null `next`. -/
def linksB (q : CQ) : Nat → List Nat → Bool
  | i, [] => i = q.tail ∧ (q.getNode i).next = none
  | i, j :: rest => j < q.nodes.length ∧ (q.getNode i).next = some j ∧ linksB q j rest

/-- Well-formedness of a `ConcurrentQueue` state with element nodes `c` (in
queue order, excluding the head sentinel): either empty with the sentinel
self-loop, or a null-terminated chain from the sentinel to the tail. -/
def cqChain (q : CQ) (c : List Nat) : Bool :=
  decide (q.head < q.nodes.length) && nodupB (q.head :: c) &&
  (match c with
   | [] => decide (q.head = q.tail) && decide ((q.getNode q.head).next = some q.head)
   | _ :: _ => linksB q q.head c)

/-- Whether attaching a dependent with the given fulfil callback closes
the upstream promise (`hasRvalueArgument`). -/
def thenRv (onF : Option Callback) : Bool :=
  match onF with
  | some cb => cb.rvalue
  | none => false

/-- The heap produced by a successful `then` on an unsettled promise `i`:
the freshly allocated dependent (with its upstream back-reference), the
appended downstream entry, and the close on an rvalue-argument callback. -/
def thenHeap (h : Heap) (i : Nat) (onF onR : Option Callback) : Heap :=
  let j := h.ps.length
  let hA : Heap := { h with ps := h.ps ++ [{ dPimpl with onFulfil := onF, onReject := onR }] }
  let hB := hA.set j fun q => { q with upstream := some i }
  let hC := hB.set i fun p => { p with downstream := p.downstream ++ [j] }
  if thenRv onF then hC.set i fun p => { p with closed := true } else hC

/-- The closed flag of every promise is preserved from `h` to `h2`:
once observed `true` it stays `true` (used to state monotonicity). -/
def closedPres (h h2 : Heap) : Prop :=
  ∀ j, (h.get j).closed = true → (h2.get j).closed = true

/-! ## Basic list and heap lemmas -/

theorem list_getD_set {α : Type} (l : List α) (i j : Nat) (a d : α) :
    (l.set i a).getD j d = if j = i ∧ i < l.length then a else l.getD j d := by
  induction l generalizing i j with
  | nil => simp [List.getD]
  | cons x xs ih =>
    cases i with
    | zero =>
      cases j with
      | zero => simp
      | succ j => simp [List.getD]
    | succ i =>
      cases j with
      | zero => simp [List.getD]
      | succ j =>
        simp only [List.set, List.getD_cons_succ, List.length_cons, ih]
        have hiff : (j = i ∧ i < xs.length) ↔ (j + 1 = i + 1 ∧ i + 1 < xs.length + 1) := by
          omega
        rw [if_congr hiff rfl rfl]

theorem list_getD_append {α : Type} (l l2 : List α) (j : Nat) (d : α) :
    (l ++ l2).getD j d = if j < l.length then l.getD j d else l2.getD (j - l.length) d := by
  induction l generalizing j with
  | nil => simp [List.getD]
  | cons x xs ih =>
    cases j with
    | zero => simp [List.getD]
    | succ j =>
      simp only [List.cons_append, List.getD_cons_succ, List.length_cons, ih]
      have hiff : (j < xs.length) ↔ (j + 1 < xs.length + 1) := by omega
      rw [if_congr hiff rfl rfl]
      have : j + 1 - (xs.length + 1) = j - xs.length := by omega
      rw [this]

theorem Heap.get_set (h : Heap) (i j : Nat) (f : Pimpl → Pimpl) :
    (h.set i f).get j = if j = i ∧ i < h.ps.length then f (h.get i) else h.get j := by
  simp only [Heap.get, Heap.set]
  exact list_getD_set h.ps i j _ dPimpl

theorem Heap.get_set_ne (h : Heap) (i j : Nat) (f : Pimpl → Pimpl) (hne : ¬ j = i) :
    (h.set i f).get j = h.get j := by
  rw [Heap.get_set, if_neg]; intro hc; exact hne hc.1

theorem Heap.get_set_eq (h : Heap) (i : Nat) (f : Pimpl → Pimpl) (hi : i < h.ps.length) :
    (h.set i f).get i = f (h.get i) := by
  rw [Heap.get_set, if_pos ⟨rfl, hi⟩]

theorem Heap.set_ps_length (h : Heap) (i : Nat) (f : Pimpl → Pimpl) :
    (h.set i f).ps.length = h.ps.length := by
  simp [Heap.set]

theorem Heap.getCtx_setCtx (h : Heap) (c c2 : Nat) (f : AllCtx → AllCtx) :
    (h.setCtx c f).getCtx c2 =
      if c2 = c ∧ c < h.ctxs.length then f (h.getCtx c) else h.getCtx c2 := by
  simp only [Heap.getCtx, Heap.setCtx]
  exact list_getD_set h.ctxs c c2 _ dCtx

theorem Heap.get_append (h : Heap) (p : Pimpl) (j : Nat) :
    ({ h with ps := h.ps ++ [p] } : Heap).get j = if j = h.ps.length then p else h.get j := by
  simp only [Heap.get, list_getD_append]
  rcases Nat.lt_trichotomy j h.ps.length with hlt | heq | hgt
  · rw [if_pos hlt, if_neg (by omega)]
  · subst heq
    simp [List.getD]
  · rw [if_neg (by omega), if_neg (by omega)]
    have hL : ([p]).getD (j - h.ps.length) dPimpl = dPimpl := by
      apply List.getD_eq_default
      simp only [List.length_singleton]
      omega
    have hR : h.get j = dPimpl := by
      simp only [Heap.get]
      apply List.getD_eq_default
      omega
    rw [hL]
    exact hR.symm

/-! ## Frame lemmas: which parts of the heap each primitive touches -/

theorem Heap.logEv_get (h : Heap) (e : Event) (j : Nat) : (h.logEv e).get j = h.get j := rfl

theorem Heap.logEv_getCtx (h : Heap) (e : Event) (c : Nat) :
    (h.logEv e).getCtx c = h.getCtx c := rfl

theorem Heap.setCtx_get (h : Heap) (c : Nat) (f : AllCtx → AllCtx) (j : Nat) :
    (h.setCtx c f).get j = h.get j := rfl

theorem Heap.set_getCtx (h : Heap) (i : Nat) (f : Pimpl → Pimpl) (c : Nat) :
    (h.set i f).getCtx c = h.getCtx c := rfl

theorem commitAndFlag_get (h : Heap) (i j : Nat) (nv : Val) :
    (commitAndFlag h i nv).get j =
      if j = i ∧ i < h.ps.length then
        { h.get i with upstream := none, value := nv, settledFlag := true,
                       undelivered :=
                         if (h.get i).downstream = [] ∧ tyOf nv = .excT then true
                         else (h.get i).undelivered }
      else h.get j := by
  simp only [commitAndFlag]
  rw [Heap.get_set]

theorem commitAndFlag_get_ne (h : Heap) (i j : Nat) (nv : Val) (hne : ¬ j = i) :
    (commitAndFlag h i nv).get j = h.get j := by
  rw [commitAndFlag_get, if_neg]; intro hc; exact hne hc.1

theorem commitAndFlag_ps_length (h : Heap) (i : Nat) (nv : Val) :
    (commitAndFlag h i nv).ps.length = h.ps.length := by
  simp [commitAndFlag, Heap.set]

theorem commitAndFlag_getCtx (h : Heap) (i : Nat) (nv : Val) (c : Nat) :
    (commitAndFlag h i nv).getCtx c = h.getCtx c := rfl

theorem commitAndFlag_ctxs (h : Heap) (i : Nat) (nv : Val) :
    (commitAndFlag h i nv).ctxs = h.ctxs := rfl

theorem commitAndFlag_flags (h : Heap) (i : Nat) (nv : Val) :
    (commitAndFlag h i nv).flags = h.flags := rfl

/-! ## One-step execution lemmas for `settleF` / `linkF` / `thenF` -/

/-- Direct settle of a bare unsettled root (no callbacks, no upstream):
commit the value, then propagate (or set the undelivered flag). -/
theorem settle_bare_direct (hT : Bool) (fuel : Nat) (h : Heap) (i : Nat) (v : Val)
    (hful : (h.get i).onFulfil = none) (hrej : (h.get i).onReject = none)
    (hval : tyOf (h.get i).value = .unsetT) (hup : (h.get i).upstream = none) :
    settleF hT (fuel + 1) h i v true =
      if (h.get i).downstream = [] then (.ok (), commitAndFlag h i v)
      else propagateF hT fuel (commitAndFlag h i v) i (h.get i).downstream := by
  simp [settleF, dispatchF, hful, hrej, hval, hup]

/-- Non-direct settle of a promise with no callbacks: commit and
propagate. -/
theorem settle_bare_dep (hT : Bool) (fuel : Nat) (h : Heap) (i : Nat) (v : Val)
    (hful : (h.get i).onFulfil = none) (hrej : (h.get i).onReject = none) :
    settleF hT (fuel + 1) h i v false =
      if (h.get i).downstream = [] then (.ok (), commitAndFlag h i v)
      else propagateF hT fuel (commitAndFlag h i v) i (h.get i).downstream := by
  simp [settleF, dispatchF, hful, hrej]

/-- Direct settle with an exception value when no reject callback is
installed (the fulfil callback, if any, is skipped). -/
theorem settle_exc_norej (hT : Bool) (fuel : Nat) (h : Heap) (i : Nat) (e : Err)
    (hrej : (h.get i).onReject = none)
    (hval : tyOf (h.get i).value = .unsetT) (hup : (h.get i).upstream = none) :
    settleF hT (fuel + 1) h i (.exc e) true =
      if (h.get i).downstream = [] then (.ok (), commitAndFlag h i (.exc e))
      else propagateF hT fuel (commitAndFlag h i (.exc e)) i (h.get i).downstream := by
  have hexc : tyOf (Val.exc e) = Ty.excT := rfl
  simp [settleF, dispatchF, hrej, hval, hup, hexc]

/-- Non-direct settle through a pure fulfil callback taking `Any`. -/
theorem settle_pure_dep (hT : Bool) (fuel : Nat) (h : Heap) (i : Nat) (v : Val)
    (cb : Callback) (pf : PureFn)
    (hful : (h.get i).onFulfil = some cb)
    (harg : cb.argType = .anyT) (hfn : cb.fn = .pure pf)
    (hev : evalPure pf v = .ret (pureApply pf v))
    (hv : ¬ tyOf v = .excT) :
    settleF hT (fuel + 2) h i v false =
      (if (h.get i).downstream = [] then
        (.ok (), commitAndFlag (h.logEv (.invoke i true v)) i (pureApply pf v))
      else
        propagateF hT (fuel + 1) (commitAndFlag (h.logEv (.invoke i true v)) i (pureApply pf v))
          i (h.get i).downstream) := by
  simp [settleF, dispatchF, hful, hfn, hv, invokeCb, harg, hev, Heap.logEv_get]

theorem thenHeap_ps_length (h : Heap) (i : Nat) (onF onR : Option Callback) :
    (thenHeap h i onF onR).ps.length = h.ps.length + 1 := by
  simp only [thenHeap]
  split <;> simp [Heap.set]

theorem thenHeap_ctxs (h : Heap) (i : Nat) (onF onR : Option Callback) :
    (thenHeap h i onF onR).ctxs = h.ctxs := by
  simp only [thenHeap]
  split <;> rfl

theorem thenHeap_get_other (h : Heap) (i : Nat) (onF onR : Option Callback) (m : Nat)
    (hmi : ¬ m = i) (hmj : ¬ m = h.ps.length) :
    (thenHeap h i onF onR).get m = h.get m := by
  simp only [thenHeap]
  have hlen : ({ h with ps := h.ps ++ [{ dPimpl with onFulfil := onF, onReject := onR }] }
      : Heap).ps.length = h.ps.length + 1 := by simp
  split <;>
    (first
      | (rw [Heap.get_set_ne _ _ _ _ hmi, Heap.get_set_ne _ _ _ _ hmi,
            Heap.get_set_ne _ _ _ _ hmj, Heap.get_append, if_neg hmj])
      | (rw [Heap.get_set_ne _ _ _ _ hmi, Heap.get_set_ne _ _ _ _ hmj,
            Heap.get_append, if_neg hmj]))

theorem thenHeap_get_new (h : Heap) (i : Nat) (onF onR : Option Callback)
    (hij : ¬ i = h.ps.length) :
    (thenHeap h i onF onR).get h.ps.length =
      { dPimpl with onFulfil := onF, onReject := onR, upstream := some i } := by
  simp only [thenHeap]
  have hlen : ({ h with ps := h.ps ++ [{ dPimpl with onFulfil := onF, onReject := onR }] }
      : Heap).ps.length = h.ps.length + 1 := by simp
  have hget : ({ h with ps := h.ps ++ [{ dPimpl with onFulfil := onF, onReject := onR }] }
      : Heap).get h.ps.length = { dPimpl with onFulfil := onF, onReject := onR } := by
    rw [Heap.get_append, if_pos rfl]
  have hne : ¬ h.ps.length = i := fun hc => hij hc.symm
  split
  · rw [Heap.get_set_ne _ _ _ _ hne, Heap.get_set_ne _ _ _ _ hne,
      Heap.get_set_eq _ _ _ (by rw [hlen]; omega), hget]
  · rw [Heap.get_set_ne _ _ _ _ hne,
      Heap.get_set_eq _ _ _ (by rw [hlen]; omega), hget]

theorem thenHeap_get_i (h : Heap) (i : Nat) (onF onR : Option Callback)
    (hi : i < h.ps.length) :
    (thenHeap h i onF onR).get i =
      (if thenRv onF then
        { h.get i with downstream := (h.get i).downstream ++ [h.ps.length], closed := true }
      else
        { h.get i with downstream := (h.get i).downstream ++ [h.ps.length] }) := by
  have hij : ¬ i = h.ps.length := by omega
  have hlen : ({ h with ps := h.ps ++ [{ dPimpl with onFulfil := onF, onReject := onR }] }
      : Heap).ps.length = h.ps.length + 1 := by simp
  have hget : ({ h with ps := h.ps ++ [{ dPimpl with onFulfil := onF, onReject := onR }] }
      : Heap).get i = h.get i := by
    rw [Heap.get_append, if_neg hij]
  simp only [thenHeap]
  split
  · rw [Heap.get_set_eq _ _ _ (by rw [Heap.set_ps_length, Heap.set_ps_length, hlen]; omega),
      Heap.get_set_eq _ _ _ (by rw [Heap.set_ps_length, hlen]; omega),
      Heap.get_set_ne _ _ _ _ hij, hget]
  · rw [Heap.get_set_eq _ _ _ (by rw [Heap.set_ps_length, hlen]; omega),
      Heap.get_set_ne _ _ _ _ hij, hget]

/-- A successful `then` on an unsettled, unclosed promise whose new fulfil
callback takes `Any` (or is absent): the attach-time type check passes, the
dependent is appended and the promise is closed exactly on an
rvalue-argument callback. -/
theorem thenF_unsettled (hT : Bool) (fuel : Nat) (h : Heap) (i : Nat)
    (onF onR : Option Callback)
    (hcl : (h.get i).closed = false) (hset : (h.get i).settledFlag = false)
    (hi : i < h.ps.length)
    (htc : match onF with | some cb => cb.argType = .anyT | none => True) :
    thenF hT (fuel + 1) h i onF onR = (.ok h.ps.length, thenHeap h i onF onR) := by
  have hij : ¬ i = h.ps.length := by omega
  have hne : ¬ h.ps.length = i := fun hc => hij hc.symm
  have hlen : ({ h with ps := h.ps ++ [{ dPimpl with onFulfil := onF, onReject := onR }] }
      : Heap).ps.length = h.ps.length + 1 := by simp
  have hgetApp : ({ h with ps := h.ps ++ [{ dPimpl with onFulfil := onF, onReject := onR }] }
      : Heap).get h.ps.length = { dPimpl with onFulfil := onF, onReject := onR } := by
    rw [Heap.get_append, if_pos rfl]
  have hgetAppI : ({ h with ps := h.ps ++ [{ dPimpl with onFulfil := onF, onReject := onR }] }
      : Heap).get i = h.get i := by
    rw [Heap.get_append, if_neg hij]
  simp only [thenF, hcl, Bool.false_eq_true, if_false, linkF, thenHeap]
  rw [Heap.get_set_ne _ _ _ _ hij, hgetAppI,
    Heap.get_set_eq _ _ _ (by rw [hlen]; omega), hgetApp]
  cases onF with
  | none => simp [hset, thenRv]
  | some cb =>
    simp only at htc
    simp [hset, thenRv, htc]

/-- Attaching a dependent (with no rvalue-argument fulfil callback) to a
settled promise holding an exception: the undelivered flag is cleared and
the dependent is settled with the stored value. -/
theorem linkF_settled_exc (hT : Bool) (fuel : Nat) (h : Heap) (i j : Nat)
    (hne : ¬ i = j) (hj : j < h.ps.length)
    (hset : (h.get i).settledFlag = true)
    (hexc : tyOf (h.get i).value = .excT)
    (hrv : thenRv ((h.get j).onFulfil) = false) :
    linkF hT (fuel + 1) h i j =
      settleF hT fuel
        ((h.set j fun q => { q with upstream := some i }).set i
          fun p => { p with undelivered := false })
        j (h.get i).value false := by
  have hne2 : ¬ j = i := fun hc => hne hc.symm
  simp only [linkF]
  rw [Heap.get_set_ne _ _ _ _ hne, Heap.get_set_eq _ _ _ hj]
  simp only [thenRv] at hrv
  rw [hrv, hset, hexc]
  simp only [not_true, false_and, if_false, if_true, if_pos rfl, Bool.false_eq_true]
  have hval : (((h.set j fun q => { q with upstream := some i }).set i
      fun p => { p with undelivered := false }).get i).value = (h.get i).value := by
    rw [Heap.get_set]
    split
    · rw [Heap.get_set_ne _ _ _ _ hne]
    · rw [Heap.get_set_ne _ _ _ _ hne]
  rw [hval]

/-! ## Monotonicity of the closed flag -/

theorem closedPres_refl (h : Heap) : closedPres h h := fun _ hj => hj

theorem closedPres_trans {h1 h2 h3 : Heap} (a : closedPres h1 h2) (b : closedPres h2 h3) :
    closedPres h1 h3 := fun j hj => b j (a j hj)

theorem closedPres_set (h : Heap) (i : Nat) (f : Pimpl → Pimpl)
    (hf : ∀ p, p.closed = true → (f p).closed = true) : closedPres h (h.set i f) := by
  intro j hj
  rw [Heap.get_set]
  split
  · next hc =>
    rcases hc with ⟨hji, _⟩
    exact hf _ (hji ▸ hj)
  · exact hj

theorem closedPres_of_get_eq {h h2 : Heap} (he : ∀ j, h2.get j = h.get j) :
    closedPres h h2 := by
  intro j hj; rw [he j]; exact hj

theorem closedPres_logEv (h : Heap) (e : Event) : closedPres h (h.logEv e) :=
  closedPres_of_get_eq fun _ => rfl

theorem closedPres_setCtx (h : Heap) (c : Nat) (f : AllCtx → AllCtx) :
    closedPres h (h.setCtx c f) :=
  closedPres_of_get_eq fun _ => rfl

theorem closedPres_commit (h : Heap) (i : Nat) (nv : Val) :
    closedPres h (commitAndFlag h i nv) := by
  apply closedPres_set
  intro p hp
  exact hp

theorem closedPres_flags (h : Heap) (fl : List Bool) :
    closedPres h { h with flags := fl } :=
  closedPres_of_get_eq fun _ => rfl

/-- C3's core invariant, proved over the whole engine by strong induction
on fuel: no run of `settle` / `propagate` / `link` / callback invocation
ever clears a closed flag. -/
theorem closed_mono (hT : Bool) : ∀ fuel : Nat,
    (∀ h i v d, closedPres h (settleF hT fuel h i v d).2) ∧
    (∀ h par cs, closedPres h (propagateF hT fuel h par cs).2) ∧
    (∀ h i j, closedPres h (linkF hT fuel h i j).2) ∧
    (∀ h cb v, closedPres h (invokeCb hT fuel h cb v).2) := by
  intro fuel
  induction fuel using Nat.strong_induction_on with
  | _ fuel ih =>
  rcases fuel with _ | f
  · refine ⟨?_, ?_, ?_, ?_⟩
    · intro h i v d
      simp only [settleF]
      exact closedPres_refl h
    · intro h par cs
      cases cs <;> simp only [propagateF] <;> exact closedPres_refl h
    · intro h i j
      simp only [linkF]
      exact closedPres_refl h
    · intro h cb v
      simp only [invokeCb]
      split
      · exact closedPres_refl h
      · split
        · exact closedPres_refl h
        · exact closedPres_refl h
        · exact closedPres_refl h
        · exact closedPres_flags h _
  · have ihS : ∀ h i v d, closedPres h (settleF hT f h i v d).2 :=
      fun h i v d => (ih f (by omega)).1 h i v d
    have ihP : ∀ h par cs, closedPres h (propagateF hT f h par cs).2 :=
      fun h par cs => (ih f (by omega)).2.1 h par cs
    have ihL : ∀ h i j, closedPres h (linkF hT f h i j).2 :=
      fun h i j => (ih f (by omega)).2.2.1 h i j
    have presSet : ∀ (h : Heap) i, closedPres h
        (h.set i fun p => { p with onFulfil := none, onReject := none }) := by
      intro h i
      apply closedPres_set
      intro p hp
      exact hp
    have presUp : ∀ (h : Heap) i j, closedPres h
        (h.set j fun q => { q with upstream := some i }) := by
      intro h i j
      apply closedPres_set
      intro p hp
      exact hp
    have presDown : ∀ (h : Heap) i j, closedPres h
        (h.set i fun p => { p with downstream := p.downstream ++ [j] }) := by
      intro h i j
      apply closedPres_set
      intro p hp
      exact hp
    have presClose : ∀ (h : Heap) i, closedPres h
        (h.set i fun p => { p with closed := true }) := by
      intro h i
      apply closedPres_set
      intro p hp
      rfl
    have presUndel : ∀ (h : Heap) i, closedPres h
        (h.set i fun p => { p with undelivered := false }) := by
      intro h i
      apply closedPres_set
      intro p hp
      exact hp
    have ihD : ∀ h i v, closedPres h (dispatchF hT f h i v).2 := by
      intro h i v
      simp only [dispatchF]
      split
      · rcases hof : (h.get i).onFulfil with _ | cb
        · exact closedPres_refl h
        · rcases f with _ | g
          · exact closedPres_refl h
          · rcases hinv : invokeCb hT g (h.logEv (.invoke i true v)) cb v with ⟨r, h2⟩
            dsimp only
            rw [hinv]
            have hpres2 : closedPres h h2 := by
              refine closedPres_trans (closedPres_logEv h (.invoke i true v)) ?_
              have hx := (ih g (by omega)).2.2.2 (h.logEv (.invoke i true v)) cb v
              rw [hinv] at hx
              exact hx
            rcases r with e | io
            · exact hpres2
            · rcases io with rv | q | e | _ <;>
                dsimp only <;>
                first
                | exact hpres2
                | (split <;> exact closedPres_trans hpres2 (closedPres_logEv h2 .badCastCall))
      · rcases hor : (h.get i).onReject with _ | cb
        · exact closedPres_refl h
        · rcases f with _ | g
          · exact closedPres_refl h
          · rcases hinv : invokeCb hT g (h.logEv (.invoke i false v)) cb v with ⟨r, h2⟩
            dsimp only
            rw [hinv]
            have hpres2 : closedPres h h2 := by
              refine closedPres_trans (closedPres_logEv h (.invoke i false v)) ?_
              have hx := (ih g (by omega)).2.2.2 (h.logEv (.invoke i false v)) cb v
              rw [hinv] at hx
              exact hx
            rcases r with e | io
            · exact hpres2
            · rcases io with rv | q | e | _ <;> dsimp only <;> exact hpres2
    refine ⟨?_, ?_, ?_, ?_⟩
    · -- settleF
      intro h i v d
      simp only [settleF]
      split
      · exact closedPres_refl h
      · rcases hdsp : dispatchF hT f h i v with ⟨r, h2⟩
        have hpres2 : closedPres h h2 := by
          have hx := ihD h i v
          rw [hdsp] at hx
          exact hx
        rcases r with e | cbv
        · exact hpres2
        · rcases cbv with _ | cv | q
          · dsimp only
            split
            · exact hpres2
            · split
              · exact closedPres_trans hpres2 (closedPres_commit h2 i _)
              · exact closedPres_trans hpres2
                  (closedPres_trans (closedPres_commit h2 i _) (ihP _ i _))
          · dsimp only
            split
            · exact hpres2
            · split
              · exact closedPres_trans hpres2 (closedPres_commit h2 i _)
              · exact closedPres_trans hpres2
                  (closedPres_trans (closedPres_commit h2 i _) (ihP _ i _))
          · exact closedPres_trans hpres2 (closedPres_trans (presSet h2 i) (ihL _ q i))
    · -- propagateF
      intro h par cs
      cases cs with
      | nil =>
        simp only [propagateF]
        exact closedPres_refl h
      | cons c cs =>
        simp only [propagateF]
        rcases hst : settleF hT f h c (h.get par).value false with ⟨r, h2⟩
        have hpres2 : closedPres h h2 := by
          have hx := ihS h c (h.get par).value false
          rw [hst] at hx
          exact hx
        rcases r with e | u
        · exact hpres2
        · dsimp only
          exact closedPres_trans hpres2 (ihP h2 par cs)
    · -- linkF
      intro h i j
      simp only [linkF]
      split
      · -- unsettled branch
        split
        · exact presUp h i j
        · split
          · exact closedPres_trans (presUp h i j)
              (closedPres_trans (presDown _ i j) (presClose _ i))
          · exact closedPres_trans (presUp h i j) (presDown _ i j)
      · -- settled branch
        split <;> split <;>
          refine closedPres_trans (presUp h i j) ?_ <;>
          first
          | exact closedPres_trans (presUndel _ i)
              (closedPres_trans (presClose _ i) (ihS _ j _ false))
          | exact closedPres_trans (presUndel _ i) (ihS _ j _ false)
          | exact closedPres_trans (presClose _ i) (ihS _ j _ false)
          | exact ihS _ j _ false
    · -- invokeCb
      intro h cb v
      simp only [invokeCb]
      split
      · exact closedPres_refl h
      · split
        · exact closedPres_refl h
        · -- allFulfil: the inner settle of the combined promise runs at fuel f
          rename_i cid k hfneq
          split
          · split
            · rename_i u h3 hseq
              have h3eq := congrArg Prod.snd hseq
              rw [← h3eq]
              exact closedPres_trans (closedPres_setCtx h cid _)
                (closedPres_trans (closedPres_setCtx _ cid _) (ihS _ _ _ true))
            · rename_i l h3 hseq
              have h3eq := congrArg Prod.snd hseq
              rw [← h3eq]
              exact closedPres_trans (closedPres_setCtx h cid _)
                (closedPres_trans (closedPres_setCtx _ cid _) (ihS _ _ _ true))
            · rename_i h3 hseq
              have h3eq := congrArg Prod.snd hseq
              rw [← h3eq]
              exact closedPres_trans (closedPres_setCtx h cid _)
                (closedPres_trans (closedPres_setCtx _ cid _) (ihS _ _ _ true))
            · rename_i h3 hseq
              have h3eq := congrArg Prod.snd hseq
              rw [← h3eq]
              exact closedPres_trans (closedPres_setCtx h cid _)
                (closedPres_trans (closedPres_setCtx _ cid _) (ihS _ _ _ true))
          · exact closedPres_trans (closedPres_setCtx h cid _) (closedPres_setCtx _ cid _)
        · -- allReject
          rename_i cid hfneq2
          split
          · exact closedPres_refl h
          · split
            · rename_i u h3 hseq
              have h3eq := congrArg Prod.snd hseq
              rw [← h3eq]
              exact closedPres_trans (closedPres_setCtx h cid _) (ihS _ _ _ true)
            · rename_i l h3 hseq
              have h3eq := congrArg Prod.snd hseq
              rw [← h3eq]
              exact closedPres_trans (closedPres_setCtx h cid _) (ihS _ _ _ true)
            · rename_i h3 hseq
              have h3eq := congrArg Prod.snd hseq
              rw [← h3eq]
              exact closedPres_trans (closedPres_setCtx h cid _) (ihS _ _ _ true)
            · rename_i h3 hseq
              have h3eq := congrArg Prod.snd hseq
              rw [← h3eq]
              exact closedPres_trans (closedPres_setCtx h cid _) (ihS _ _ _ true)
        · exact closedPres_flags h _

/-! ## Linear chains (`then` pipelines) -/

theorem builtChainFrom_congr (h h2 : Heap) (cbs : List Callback) :
    ∀ j, (∀ m, j ≤ m → h2.get m = h.get m) → h2.ps.length = h.ps.length →
    builtChainFrom h j cbs → builtChainFrom h2 j cbs := by
  induction cbs with
  | nil =>
    intro j _ _ _
    trivial
  | cons cb cbs ih =>
    intro j hg hl hb
    obtain ⟨⟨hjlen, hjeq⟩, hrest⟩ := hb
    refine ⟨⟨by omega, by rw [hg j le_rfl]; exact hjeq⟩, ?_⟩
    exact ih (j + 1) (fun m hm => hg m (by omega)) hl hrest

theorem chainEval_cons (cb : Callback) (cbs : List Callback) (v : Val) :
    chainEval (cb :: cbs) v = chainEval cbs (fnApply cb.fn v) := rfl

/-- Settling the first dependent of a linear chain of well-behaved
callbacks threads the value through every callback in order and settles the
last promise with the composition of the callbacks. -/
theorem chain_settle (hT : Bool) : ∀ (cbs : List Callback) (cb : Callback) (h : Heap)
    (i : Nat) (v : Val) (fuel : Nat),
    goodCb cb → (∀ c ∈ cbs, goodCb c) → ¬ tyOf v = .excT →
    builtChainFrom h i (cb :: cbs) → 2 * (cbs.length + 1) ≤ fuel →
    ∃ h2, settleF hT fuel h i v false = (.ok (), h2) ∧
      (h2.get (i + cbs.length)).value = chainEval (cb :: cbs) v ∧
      (h2.get (i + cbs.length)).settledFlag = true ∧
      h2.ps.length = h.ps.length := by
  intro cbs
  induction cbs with
  | nil =>
    intro cb h i v fuel hgcb _ hv hchain hfuel
    obtain ⟨⟨hilen, hieq⟩, -⟩ := hchain
    obtain ⟨harg, hrvF, pf, hfn, hev, hne⟩ := hgcb
    obtain ⟨f, rfl⟩ : ∃ f, fuel = f + 2 := ⟨fuel - 2, by omega⟩
    have hful : (h.get i).onFulfil = some cb := by rw [hieq]; rfl
    have hdown : (h.get i).downstream = [] := by rw [hieq]; rfl
    rw [settle_pure_dep hT f h i v cb pf hful harg hfn (hev v) hv, hdown, if_pos rfl]
    refine ⟨_, rfl, ?_, ?_, ?_⟩
    · rw [commitAndFlag_get, if_pos ⟨rfl, by simpa using hilen⟩]
      simp only [List.length_nil, Nat.add_zero]
      rw [chainEval_cons, hfn]
      rfl
    · rw [commitAndFlag_get, if_pos ⟨rfl, by simpa using hilen⟩]
    · rw [commitAndFlag_ps_length]
      rfl
  | cons cb2 rest ih =>
    intro cb h i v fuel hgcb hgs hv hchain hfuel
    obtain ⟨⟨hilen, hieq⟩, hrest⟩ := hchain
    obtain ⟨harg, hrvF, pf, hfn, hev, hne⟩ := hgcb
    obtain ⟨f, rfl⟩ : ∃ f, fuel = f + 2 := ⟨fuel - 2, by omega⟩
    have hful : (h.get i).onFulfil = some cb := by rw [hieq]; rfl
    have hdown : (h.get i).downstream = [i + 1] := by
      rw [hieq]
      simp [chainNode, List.isEmpty]
    rw [settle_pure_dep hT f h i v cb pf hful harg hfn (hev v) hv, hdown]
    rw [if_neg (by simp)]
    -- the heap after the parent committed
    set w := pureApply pf v with hw
    set h3 := commitAndFlag (h.logEv (.invoke i true v)) i w with hh3
    have h3len : h3.ps.length = h.ps.length := by
      rw [hh3, commitAndFlag_ps_length]
      rfl
    have h3val : (h3.get i).value = w := by
      rw [hh3, commitAndFlag_get, if_pos ⟨rfl, by simpa using hilen⟩]
    have hchain3 : builtChainFrom h3 (i + 1) (cb2 :: rest) := by
      refine builtChainFrom_congr h h3 (cb2 :: rest) (i + 1) ?_ h3len hrest
      intro m hm
      rw [hh3, commitAndFlag_get_ne _ _ _ _ (by omega)]
      rfl
    simp only [propagateF]
    rw [h3val]
    obtain ⟨h2, hset, hval2, hflag2, hlen2⟩ :=
      ih cb2 h3 (i + 1) w f (hgs cb2 (by simp)) (fun c hc => hgs c (by simp [hc]))
        (hne v hv) hchain3 (by simp at hfuel ⊢; omega)
    rw [hset]
    refine ⟨h2, rfl, ?_, ?_, ?_⟩
    · rw [show i + (cb2 :: rest).length = (i + 1) + rest.length by simp; omega] at *
      rw [hval2, hw, chainEval_cons cb (cb2 :: rest) v, hfn]
      rfl
    · rw [show i + (cb2 :: rest).length = (i + 1) + rest.length by simp; omega]
      exact hflag2
    · rw [hlen2, h3len]

/-- Building a chain with `then` from the current tail promise `i` (which
must be fresh apart from its possible position in an existing chain)
appends one dependent per callback and produces the expected chain shape. -/
theorem buildChainAux_inv (hT : Bool) : ∀ (cbs : List Callback) (h : Heap) (i : Nat),
    (∀ c ∈ cbs, goodCb c) →
    i + 1 = h.ps.length →
    (h.get i).closed = false → (h.get i).settledFlag = false →
    (h.get i).downstream = [] →
    ∃ h2, buildChainAux hT cbs (i, h) = (i + cbs.length, h2) ∧
      h2.ps.length = h.ps.length + cbs.length ∧
      (∀ m, m < i → h2.get m = h.get m) ∧
      (h2.get i) = (if cbs.isEmpty then h.get i
        else { h.get i with downstream := [i + 1] }) ∧
      builtChainFrom h2 (i + 1) cbs := by
  intro cbs
  induction cbs with
  | nil =>
    intro h i _ _ _ _ _
    exact ⟨h, by simp [buildChainAux], by simp, fun m _ => rfl, by simp, trivial⟩
  | cons cb cbs ih =>
    intro h i hgs hlen hcl hset hdown
    have hi : i < h.ps.length := by omega
    have hgcb := hgs cb (by simp)
    obtain ⟨harg, hrvF, pf, hfn, hev, hne⟩ := hgcb
    have hthen := thenF_unsettled hT 1 h i (some cb) none hcl hset hi (by simpa using harg)
    have hrv : thenRv (some cb) = false := by simp [thenRv, hrvF]
    simp only [buildChainAux, hthen]
    set h1 := thenHeap h i (some cb) none with hh1
    have h1len : h1.ps.length = h.ps.length + 1 := thenHeap_ps_length h i _ _
    have hjlen : h.ps.length = i + 1 := hlen.symm
    have h1geti : h1.get i = { h.get i with downstream := [i + 1] } := by
      rw [hh1, thenHeap_get_i h i _ _ hi, hrv]
      simp [hdown, hjlen]
    have h1getnew : h1.get (i + 1) =
        { dPimpl with onFulfil := some cb, onReject := none, upstream := some i } := by
      rw [hh1, ← hjlen]
      exact thenHeap_get_new h i _ _ (by omega)
    have h1other : ∀ m, m < i → h1.get m = h.get m := by
      intro m hm
      rw [hh1]
      exact thenHeap_get_other h i _ _ m (by omega) (by omega)
    obtain ⟨h2, hrun, hlen2, hother2, hgeti2, hchain2⟩ :=
      ih h1 (i + 1) (fun c hc => hgs c (by simp [hc])) (by omega)
        (by rw [h1getnew]; rfl) (by rw [h1getnew]; rfl) (by rw [h1getnew]; rfl)
    rw [← hjlen] at hrun
    refine ⟨h2, ?_, by simp only [List.length_cons]; omega, ?_, ?_, ?_, ?_⟩
    · rw [hrun]
      have harith : h.ps.length + cbs.length = i + (cb :: cbs).length := by
        simp only [List.length_cons]
        omega
      rw [harith]
    · intro m hm
      rw [hother2 m (by omega), h1other m hm]
    · rw [if_neg (by simp), hother2 i (by omega), h1geti]
    · -- builtNode at i+1
      refine ⟨by omega, ?_⟩
      rw [hgeti2, h1getnew]
      cases hc : cbs.isEmpty
      · simp only [Bool.false_eq_true, if_false]
        simp [chainNode, hc, dPimpl]
      · simp only [if_true]
        simp [chainNode, hc, dPimpl]
    · exact hchain2

theorem goodCb_idCb : goodCb idCb :=
  ⟨rfl, rfl, .idF, rfl, fun _ => rfl, fun v hv => by simpa [pureApply] using hv⟩

theorem chainEval_replicate_id (n : Nat) (fcb : Callback) (v : Val) :
    chainEval (List.replicate n idCb ++ [fcb]) v = fnApply fcb.fn v := by
  induction n generalizing v with
  | zero => rfl
  | succ n ih =>
    rw [List.replicate_succ, List.cons_append, chainEval_cons]
    exact ih _

/-- Settling the root of a freshly built chain with a non-exception value
runs the whole pipeline and settles the final promise with the composed
value. -/
theorem chain_run (hT : Bool) (cbs : List Callback) (v : Val) (fuel : Nat)
    (hgs : ∀ c ∈ cbs, goodCb c) (hne : cbs ≠ []) (hv : ¬ tyOf v = .excT)
    (hfuel : 2 * cbs.length + 2 ≤ fuel) :
    ∃ h2, settleF hT fuel (buildChain hT cbs).2 0 v true = (.ok (), h2) ∧
      (h2.get cbs.length).value = chainEval cbs v ∧
      (h2.get cbs.length).settledFlag = true := by
  obtain ⟨h, hrun, hlen, -, hget0, hchain⟩ :=
    buildChainAux_inv hT cbs initHeap 0 hgs (by simp [initHeap]) rfl rfl rfl
  have hbc : buildChain hT cbs = (cbs.length, h) := by
    simpa [buildChain] using hrun
  rw [hbc]
  have hie : cbs.isEmpty = false := by
    cases cbs
    · exact absurd rfl hne
    · rfl
  rw [hie] at hget0
  simp only [Bool.false_eq_true, if_false] at hget0
  have hlen1 : h.ps.length = cbs.length + 1 := by
    simp only [initHeap, List.length_singleton] at hlen
    omega
  obtain ⟨f, rfl⟩ : ∃ f, fuel = f + 1 := ⟨fuel - 1, by omega⟩
  have hful : (h.get 0).onFulfil = none := by rw [hget0]; rfl
  have hrej : (h.get 0).onReject = none := by rw [hget0]; rfl
  have hval : tyOf (h.get 0).value = .unsetT := by rw [hget0]; rfl
  have hup : (h.get 0).upstream = none := by rw [hget0]; rfl
  have hdown : (h.get 0).downstream = [1] := by rw [hget0]
  rw [settle_bare_direct hT f h 0 v hful hrej hval hup, hdown, if_neg (by simp)]
  set h3 := commitAndFlag h 0 v with hh3
  have h3len : h3.ps.length = h.ps.length := commitAndFlag_ps_length h 0 v
  have h3val : (h3.get 0).value = v := by
    rw [hh3, commitAndFlag_get, if_pos ⟨rfl, by omega⟩]
  have hchain3 : builtChainFrom h3 1 cbs := by
    refine builtChainFrom_congr h h3 cbs 1 ?_ h3len hchain
    intro m hm
    rw [hh3, commitAndFlag_get_ne _ _ _ _ (by omega)]
  obtain ⟨g, rfl⟩ : ∃ g, f = g + 1 := ⟨f - 1, by omega⟩
  simp only [propagateF]
  rw [h3val]
  cases cbs with
  | nil => exact absurd rfl hne
  | cons cb rest =>
    obtain ⟨h2, hset, hval2, hflag2, hlen2⟩ :=
      chain_settle hT rest cb h3 1 v g (hgs cb (by simp))
        (fun c hc => hgs c (by simp [hc])) hv hchain3
        (by simp only [List.length_cons] at hfuel; omega)
    rw [hset]
    have hidx : 1 + rest.length = (cb :: rest).length := by simp; omega
    rw [hidx] at hval2 hflag2
    exact ⟨h2, rfl, hval2, hflag2⟩

theorem goodCb_addCb (c : Int) :
    goodCb { fn := .pure (.addConst c), argType := .anyT, resultType := .anyT } := by
  refine ⟨rfl, rfl, .addConst c, rfl, fun v => by cases v <;> rfl, fun v hv => ?_⟩
  cases v <;> simp [pureApply, tyOf] at hv ⊢

theorem goodCb_mulCb (c : Int) :
    goodCb { fn := .pure (.mulConst c), argType := .anyT, resultType := .anyT } := by
  refine ⟨rfl, rfl, .mulConst c, rfl, fun v => by cases v <;> rfl, fun v hv => ?_⟩
  cases v <;> simp [pureApply, tyOf] at hv ⊢

/-- C4: for every value x and well-behaved callback f, a chain built as
root.then(identity)…then(f) with n intermediate identity links settles the
final promise Fulfilled with f(x) when the root settles Fulfilled with x;
in particular R.then(x ↦ x+1).then(x ↦ x*2) settled with 3 yields the
final promise Fulfilled with 8. -/
theorem C4_chain_composition :
    (∀ (n : Nat) (fcb : Callback) (x : Int) (hT : Bool), goodCb fcb →
      ∃ h2, settleF hT (2 * (n + 1) + 2)
          (buildChain hT (List.replicate n idCb ++ [fcb])).2 0 (.int x) true
          = (.ok (), h2) ∧
        (h2.get (n + 1)).value = fnApply fcb.fn (.int x) ∧
        (h2.get (n + 1)).settledFlag = true) ∧
    (((settleF true 10 (buildChain true
        [{ fn := .pure (.addConst 1), argType := .anyT, resultType := .anyT },
         { fn := .pure (.mulConst 2), argType := .anyT, resultType := .anyT }]).2
        0 (.int 3) true).2.get 2).value = .int 8 ∧
     ((settleF true 10 (buildChain true
        [{ fn := .pure (.addConst 1), argType := .anyT, resultType := .anyT },
         { fn := .pure (.mulConst 2), argType := .anyT, resultType := .anyT }]).2
        0 (.int 3) true).2.get 2).settledFlag = true) := by
  constructor
  · intro n fcb x hT hg
    have hlen : (List.replicate n idCb ++ [fcb]).length = n + 1 := by simp
    obtain ⟨h2, hs, hv, hf⟩ := chain_run hT (List.replicate n idCb ++ [fcb]) (.int x)
      (2 * (n + 1) + 2)
      (by intro c hc
          rcases List.mem_append.mp hc with hc | hc
          · rw [List.eq_of_mem_replicate hc]
            exact goodCb_idCb
          · simp only [List.mem_singleton] at hc
            subst hc
            exact hg)
      (by simp) (by simp [tyOf]) (by rw [hlen])
    rw [hlen] at hv hf
    rw [chainEval_replicate_id] at hv
    exact ⟨h2, hs, hv, hf⟩
  · constructor <;> rfl

/-- Witness for C4 at n = 1, f = (x ↦ x*2), x = 3. -/
theorem C4_chain_composition_witness :
    ∃ h2, settleF true (2 * (1 + 1) + 2)
        (buildChain true (List.replicate 1 idCb ++
          [{ fn := .pure (.mulConst 2), argType := .anyT, resultType := .anyT }])).2
        0 (.int 3) true = (.ok (), h2) ∧
      (h2.get (1 + 1)).value = fnApply (FnSpec.pure (.mulConst 2)) (.int 3) ∧
      (h2.get (1 + 1)).settledFlag = true :=
  C4_chain_composition.1 1 _ 3 true (goodCb_mulCb 2)

/-! ## Claim theorems -/

/-- C9: after move-constructing a Promise from source S, S refers to a
fresh shared state rather than a null handle: its settled() and closed()
queries return false, its state equals that of a newly constructed root
promise (so every operation remains valid and behaves as on a fresh root),
and the new promise owns exactly the source's old state. -/
theorem C9_move_leaves_fresh_source (h : Heap) (src : Nat) :
    ((movePromise h src).2.2.get (movePromise h src).2.1).settledFlag = false ∧
    ((movePromise h src).2.2.get (movePromise h src).2.1).closed = false ∧
    (movePromise h src).2.2.get (movePromise h src).2.1 = dPimpl ∧
    (src < h.ps.length → (movePromise h src).2.2.get (movePromise h src).1 = h.get src) := by
  have hfresh : (movePromise h src).2.2.get (movePromise h src).2.1 = dPimpl := by
    simp only [movePromise]
    rw [Heap.get_append, if_pos rfl]
  refine ⟨by rw [hfresh]; rfl, by rw [hfresh]; rfl, hfresh, ?_⟩
  intro hsrc
  simp only [movePromise]
  rw [Heap.get_append, if_neg (by omega)]

/-- Witness for C9 on a one-promise heap. -/
theorem C9_move_leaves_fresh_source_witness :
    ((movePromise { ps := [dPimpl] } 0).2.2.get
        (movePromise { ps := [dPimpl] } 0).2.1).settledFlag = false ∧
    ((movePromise { ps := [dPimpl] } 0).2.2.get
        (movePromise { ps := [dPimpl] } 0).2.1).closed = false ∧
    (movePromise { ps := [dPimpl] } 0).2.2.get (movePromise { ps := [dPimpl] } 0).2.1
      = dPimpl ∧
    (0 < ({ ps := [dPimpl] } : Heap).ps.length →
      (movePromise { ps := [dPimpl] } 0).2.2.get (movePromise { ps := [dPimpl] } 0).1
        = ({ ps := [dPimpl] } : Heap).get 0) :=
  C9_move_leaves_fresh_source { ps := [dPimpl] } 0

/-- C10: `setThreadCount(0)` throws `std::invalid_argument` before
touching any pool state (the pool is returned unchanged), every positive
count is applied via `setThreadCountImpl`, and the destructor shrinks to
zero through `setThreadCountImpl`, bypassing the argument check. -/
theorem C10_setThreadCount_zero_throws (p : Pool) :
    setThreadCount p 0 = (.error .invalidArgument, p) ∧
    (∀ n, 0 < n → setThreadCount p n = (.ok (), { threads := n })) ∧
    (poolDestroy p).threads = 0 := by
  refine ⟨rfl, ?_, rfl⟩
  intro n hn
  rw [setThreadCount, if_neg (by omega)]
  rfl

/-- Witness for C10 at a pool with four threads and n = 2. -/
theorem C10_setThreadCount_zero_throws_witness :
    setThreadCount { threads := 4 } 0 = (.error .invalidArgument, { threads := 4 }) ∧
    setThreadCount { threads := 4 } 2 = (.ok (), { threads := 2 }) ∧
    (poolDestroy { threads := 4 }).threads = 0 :=
  ⟨(C10_setThreadCount_zero_throws { threads := 4 }).1,
   (C10_setThreadCount_zero_throws { threads := 4 }).2.1 2 (by decide),
   (C10_setThreadCount_zero_throws { threads := 4 }).2.2⟩

/-- C2 counterexample: a direct settle on an unsettled dependent promise
that carries a fulfil callback fails with DependentSettle as claimed, but
the callback IS invoked before the error is thrown (the dependent check at
Promise.cpp line 256 runs after the callback dispatch at lines 217–243), so
the claim's "no callback of P is invoked" is false at this input. -/
theorem C2_counterexample_callback_runs :
    (settleF true 3
      { ps := [{ dPimpl with downstream := [1] },
               { dPimpl with
                   onFulfil := some ⟨.pure (.addConst 1), .anyT, .anyT, false⟩,
                   upstream := some 0 }] }
      1 (.int 5) true).1 = .error (.logic .dependentSettle) ∧
    (settleF true 3
      { ps := [{ dPimpl with downstream := [1] },
               { dPimpl with
                   onFulfil := some ⟨.pure (.addConst 1), .anyT, .anyT, false⟩,
                   upstream := some 0 }] }
      1 (.int 5) true).2.log = [.invoke 1 true (.int 5)] :=
  ⟨rfl, rfl⟩

/-- C2 (amended): a direct terminal write on an already-settled promise
fails with AlreadySettled before any callback dispatch, leaving the whole
heap (including the event log) unchanged; a direct terminal write on an
unsettled dependent fails with DependentSettle with the promise's
value/settled/upstream state unchanged, but the check runs only after
callback dispatch: with no matching callback the heap is unchanged, while
a matching fulfil callback is invoked (only the event log grows) before
the error surfaces. -/
theorem C2_direct_settle_errors :
    (∀ (hT : Bool) (fuel : Nat) (h : Heap) (i : Nat) (v : Val),
      ¬ tyOf (h.get i).value = .unsetT →
      settleF hT (fuel + 1) h i v true = (.error (.logic .alreadySettled), h)) ∧
    (∀ (hT : Bool) (fuel : Nat) (h : Heap) (i : Nat) (v : Val),
      tyOf (h.get i).value = .unsetT →
      (h.get i).upstream.isSome →
      (h.get i).onFulfil = none → (h.get i).onReject = none →
      settleF hT (fuel + 1) h i v true = (.error (.logic .dependentSettle), h)) ∧
    (∀ (hT : Bool) (fuel : Nat) (h : Heap) (i : Nat) (v : Val) (cb : Callback)
      (pf : PureFn),
      tyOf (h.get i).value = .unsetT →
      (h.get i).upstream.isSome →
      (h.get i).onFulfil = some cb →
      cb.argType = .anyT → cb.fn = .pure pf →
      evalPure pf v = .ret (pureApply pf v) →
      ¬ tyOf v = .excT →
      settleF hT (fuel + 2) h i v true
        = (.error (.logic .dependentSettle), h.logEv (.invoke i true v))) := by
  refine ⟨?_, ?_, ?_⟩
  · intro hT fuel h i v hval
    simp [settleF, hval]
  · intro hT fuel h i v hval hup hful hrej
    simp [settleF, dispatchF, hval, hup, hful, hrej]
  · intro hT fuel h i v cb pf hval hup hful harg hfn hev hv
    simp [settleF, dispatchF, invokeCb, hval, hup, hful, harg, hfn, hev, hv, Heap.logEv_get]

/-- Witness for C2 (amended), all three conjuncts at concrete inputs. -/
theorem C2_direct_settle_errors_witness :
    settleF true 1 { ps := [{ dPimpl with value := .int 1, settledFlag := true }] }
        0 (.int 5) true
      = (.error (.logic .alreadySettled),
         { ps := [{ dPimpl with value := .int 1, settledFlag := true }] }) ∧
    settleF true 1 { ps := [{ dPimpl with upstream := some 7 }] } 0 (.int 5) true
      = (.error (.logic .dependentSettle),
         { ps := [{ dPimpl with upstream := some 7 }] }) ∧
    settleF true 2
        { ps := [{ dPimpl with
                     upstream := some 7,
                     onFulfil := some ⟨.pure .idF, .anyT, .anyT, false⟩ }] }
        0 (.int 5) true
      = (.error (.logic .dependentSettle),
         Heap.logEv { ps := [{ dPimpl with
                                 upstream := some 7,
                                 onFulfil := some ⟨.pure .idF, .anyT, .anyT, false⟩ }] }
           (.invoke 0 true (.int 5))) :=
  ⟨C2_direct_settle_errors.1 true 0 _ 0 (.int 5) (by decide),
   C2_direct_settle_errors.2.1 true 0 _ 0 (.int 5) (by decide) (by decide) rfl rfl,
   C2_direct_settle_errors.2.2 true 0 _ 0 (.int 5) _ .idF (by decide) (by decide) rfl rfl
     rfl rfl (by decide)⟩

/-- C1: the undelivered flag is set at settlement commit exactly when the
committed value is Rejected and the downstream set is empty (first
conjunct, about the single commit site `commitAndFlag` used by every
settlement); a fresh root promise settled Rejected(e) with no dependent
ever attached ends with the flag set and its destructor invokes the
undelivered-error handler exactly once with e (second conjunct); and
attaching a dependent to a settled Rejected promise clears the flag so the
destructor does not invoke the handler (third conjunct). -/
theorem C1_undelivered_lifecycle :
    (∀ (h : Heap) (i : Nat) (nv : Val), i < h.ps.length →
      (((commitAndFlag h i nv).get i).undelivered = true ↔
        ((h.get i).undelivered = true ∨
          ((h.get i).downstream = [] ∧ tyOf nv = .excT)))) ∧
    (∀ (hT : Bool) (fuel : Nat) (h : Heap) (i : Nat) (e : Err),
      i < h.ps.length → h.get i = dPimpl →
      (settleF hT (fuel + 1) h i (.exc e) true).1 = .ok () ∧
      (((settleF hT (fuel + 1) h i (.exc e) true).2.get i).undelivered = true) ∧
      destroyCall ((settleF hT (fuel + 1) h i (.exc e) true).2.get i) = some e) ∧
    (∀ (hT : Bool) (fuel : Nat) (h : Heap) (i j : Nat),
      ¬ i = j → i < h.ps.length → j < h.ps.length →
      (h.get i).settledFlag = true → tyOf (h.get i).value = .excT →
      h.get j = dPimpl →
      (linkF hT (fuel + 2) h i j).1 = .ok () ∧
      ((linkF hT (fuel + 2) h i j).2.get i).undelivered = false ∧
      destroyCall ((linkF hT (fuel + 2) h i j).2.get i) = none) := by
  refine ⟨?_, ?_, ?_⟩
  · intro h i nv hi
    rw [commitAndFlag_get, if_pos ⟨rfl, hi⟩]
    by_cases hc : (h.get i).downstream = [] ∧ tyOf nv = .excT
    · simp [hc]
    · simp [if_neg hc, hc]
  · intro hT fuel h i e hi hfresh
    have hful : (h.get i).onFulfil = none := by rw [hfresh]; rfl
    have hrej : (h.get i).onReject = none := by rw [hfresh]; rfl
    have hval : tyOf (h.get i).value = .unsetT := by rw [hfresh]; rfl
    have hup : (h.get i).upstream = none := by rw [hfresh]; rfl
    have hdown : (h.get i).downstream = [] := by rw [hfresh]; rfl
    rw [settle_bare_direct hT fuel h i (.exc e) hful hrej hval hup, hdown, if_pos rfl]
    have hget : (commitAndFlag h i (.exc e)).get i =
        { h.get i with upstream := none, value := .exc e, settledFlag := true,
                       undelivered :=
                         if (h.get i).downstream = [] ∧ tyOf (Val.exc e) = .excT then true
                         else (h.get i).undelivered } := by
      rw [commitAndFlag_get, if_pos ⟨rfl, hi⟩]
    rw [hget, hdown]
    refine ⟨rfl, by simp [tyOf], ?_⟩
    simp only [destroyCall]
    rw [if_pos]
    · rfl
    · simp [tyOf]
  · intro hT fuel h i j hne hi hj hset hexc hfresh
    have hrv : thenRv ((h.get j).onFulfil) = false := by rw [hfresh]; rfl
    rw [linkF_settled_exc hT (fuel + 1) h i j hne hj hset hexc hrv]
    set h2 := (h.set j fun q => { q with upstream := some i }).set i
      fun p => { p with undelivered := false } with hh2
    have hlen2 : h2.ps.length = h.ps.length := by
      rw [hh2, Heap.set_ps_length, Heap.set_ps_length]
    have h2geti : h2.get i = { h.get i with undelivered := false } := by
      rw [hh2, Heap.get_set_eq _ _ _ (by rw [Heap.set_ps_length]; omega),
        Heap.get_set_ne _ _ _ _ hne]
    have h2getj : h2.get j = { dPimpl with upstream := some i } := by
      rw [hh2, Heap.get_set_ne _ _ _ _ (fun hc => hne hc.symm),
        Heap.get_set_eq _ _ _ hj, hfresh]
    have hful2 : (h2.get j).onFulfil = none := by rw [h2getj]; rfl
    have hrej2 : (h2.get j).onReject = none := by rw [h2getj]; rfl
    rw [settle_bare_dep hT fuel h2 j _ hful2 hrej2]
    have hdown2 : (h2.get j).downstream = [] := by rw [h2getj]; rfl
    rw [hdown2, if_pos rfl]
    have hcg : (commitAndFlag h2 j ((h.get i).value)).get i = h2.get i :=
      commitAndFlag_get_ne h2 j i _ hne
    refine ⟨rfl, ?_, ?_⟩
    · rw [hcg, h2geti]
    · rw [hcg, h2geti]
      simp [destroyCall]

/-- Witness for C1: the three conjuncts at concrete heaps. -/
theorem C1_undelivered_lifecycle_witness :
    (((commitAndFlag { ps := [dPimpl] } 0 (.exc (.user 3))).get 0).undelivered = true ↔
      ((({ ps := [dPimpl] } : Heap).get 0).undelivered = true ∨
        ((({ ps := [dPimpl] } : Heap).get 0).downstream = [] ∧
          tyOf (Val.exc (.user 3)) = .excT))) ∧
    ((settleF true 1 { ps := [dPimpl] } 0 (.exc (.user 3)) true).1 = .ok () ∧
     ((settleF true 1 { ps := [dPimpl] } 0 (.exc (.user 3)) true).2.get 0).undelivered
       = true ∧
     destroyCall ((settleF true 1 { ps := [dPimpl] } 0 (.exc (.user 3)) true).2.get 0)
       = some (.user 3)) ∧
    ((linkF true 2
        { ps := [{ dPimpl with value := .exc (.user 3), settledFlag := true }, dPimpl] }
        0 1).1 = .ok () ∧
     ((linkF true 2
        { ps := [{ dPimpl with value := .exc (.user 3), settledFlag := true }, dPimpl] }
        0 1).2.get 0).undelivered = false ∧
     destroyCall ((linkF true 2
        { ps := [{ dPimpl with value := .exc (.user 3), settledFlag := true }, dPimpl] }
        0 1).2.get 0) = none) :=
  ⟨C1_undelivered_lifecycle.1 { ps := [dPimpl] } 0 (.exc (.user 3)) (by decide),
   C1_undelivered_lifecycle.2.1 true 0 { ps := [dPimpl] } 0 (.user 3) (by decide) rfl,
   C1_undelivered_lifecycle.2.2 true 0
     { ps := [{ dPimpl with value := .exc (.user 3), settledFlag := true }, dPimpl] }
     0 1 (by decide) (by decide) (by decide) rfl rfl rfl⟩

theorem get_default_of_ge (h : Heap) (j : Nat) (hge : h.ps.length ≤ j) :
    h.get j = dPimpl := by
  simp only [Heap.get]
  exact List.getD_eq_default _ _ hge

/-- `then` never clears a closed flag. -/
theorem thenF_closed_mono (hT : Bool) (fuel : Nat) (h : Heap) (i : Nat)
    (onF onR : Option Callback) (j : Nat) (hj : (h.get j).closed = true) :
    ((thenF hT fuel h i onF onR).2.get j).closed = true := by
  simp only [thenF]
  split
  · exact hj
  · have hjlt : j < h.ps.length := by
      by_contra hge
      rw [get_default_of_ge h j (by omega)] at hj
      exact absurd hj (by decide)
    set h1 : Heap :=
      { h with ps := h.ps ++ [{ dPimpl with onFulfil := onF, onReject := onR }] } with hh1
    have h1j : h1.get j = h.get j := by
      rw [hh1, Heap.get_append, if_neg (by omega)]
    have hpres := (closed_mono hT fuel).2.2.1 h1 i h.ps.length j (by rw [h1j]; exact hj)
    rcases hlk : linkF hT fuel h1 i h.ps.length with ⟨r, h2⟩
    rw [hlk] at hpres
    rcases r with e | u <;> exact hpres

/-- `then` on a closed promise fails with Closed, leaving the heap
unchanged. -/
theorem thenF_closed_fails (hT : Bool) (fuel : Nat) (h : Heap) (i : Nat)
    (onF onR : Option Callback) (hcl : (h.get i).closed = true) :
    thenF hT fuel h i onF onR = (.error (.logic .closedE), h) := by
  simp [thenF, hcl]

theorem closed_after_set_closed (h2 : Heap) (i : Nat) (hi : i < h2.ps.length) :
    (((h2.set i fun p => { p with closed := true })).get i).closed = true := by
  rw [Heap.get_set_eq _ _ _ hi]

/-- A successful `then` whose fulfil callback takes its argument by rvalue
reference closes the promise. -/
theorem thenF_rvalue_closes (hT : Bool) (fuel : Nat) (h : Heap) (i : Nat)
    (cb : Callback) (onR : Option Callback)
    (hrv : cb.rvalue = true) (hi : i < h.ps.length)
    (hok : ∃ j, (thenF hT fuel h i (some cb) onR).1 = .ok j) :
    ((thenF hT fuel h i (some cb) onR).2.get i).closed = true := by
  obtain ⟨j0, hok⟩ := hok
  revert hok
  simp only [thenF]
  split
  · intro hok
    exact absurd hok (by simp)
  · set h1 : Heap :=
      { h with ps := h.ps ++ [{ dPimpl with onFulfil := some cb, onReject := onR }] } with hh1
    have h1len : h1.ps.length = h.ps.length + 1 := by rw [hh1]; simp
    rcases hlk : linkF hT fuel h1 i h.ps.length with ⟨r, h2⟩
    rcases r with e | u
    · intro hok
      exact absurd hok (by simp)
    · intro _
      dsimp only
      rcases fuel with _ | f
      · simp only [linkF] at hlk
        exact absurd hlk (by simp)
      · have hij : ¬ i = h.ps.length := by omega
        have h0q : (h1.set h.ps.length fun q => { q with upstream := some i }).get
            h.ps.length
            = { dPimpl with onFulfil := some cb, onReject := onR, upstream := some i } := by
          rw [Heap.get_set_eq _ _ _ (by omega)]
          rw [hh1, Heap.get_append, if_pos rfl]
        simp only [linkF, h0q] at hlk
        rw [hrv] at hlk
        split at hlk
        · -- not settled
          split at hlk
          · exact absurd hlk (by simp)
          · simp only [if_true] at hlk
            have h2eq := congrArg Prod.snd hlk
            dsimp only at h2eq
            rw [← h2eq]
            apply closed_after_set_closed
            rw [Heap.set_ps_length, Heap.set_ps_length, h1len]
            omega
        · -- already settled: the promise is closed before the dependent settles
          simp only [if_true] at hlk
          have h2eq := congrArg Prod.snd hlk
          dsimp only at h2eq
          rw [← h2eq]
          refine (closed_mono hT f).1 _ _ _ _ i ?_
          apply closed_after_set_closed
          split <;> rw [Heap.set_ps_length] <;>
            first
              | (rw [Heap.set_ps_length, h1len]; omega)
              | (rw [h1len]; omega)

/-- C3: the closed flag is monotone under settle, link, then and close (once
true it is never cleared, so it transitions false to true at most once); a
`then`/`except` on a closed promise fails with `Closed` leaving the heap
unchanged; and a successful `then` whose on_fulfil callback takes its argument
by rvalue reference closes the promise. -/
theorem C3_closed_flag (hT : Bool) (fuel : Nat) (h : Heap) (i j k : Nat)
    (v : Val) (d : Bool) (onF onR : Option Callback) (cb : Callback) :
    ((h.get j).closed = true →
      ((settleF hT fuel h i v d).2.get j).closed = true
      ∧ ((linkF hT fuel h i k).2.get j).closed = true
      ∧ ((thenF hT fuel h i onF onR).2.get j).closed = true
      ∧ ((closeF h i).get j).closed = true)
    ∧ ((h.get i).closed = true →
        thenF hT fuel h i onF onR = (.error (.logic .closedE), h))
    ∧ (cb.rvalue = true → i < h.ps.length →
        (∃ j0, (thenF hT fuel h i (some cb) onR).1 = .ok j0) →
        ((thenF hT fuel h i (some cb) onR).2.get i).closed = true) := by
  refine ⟨?_, ?_, ?_⟩
  · intro hj
    refine ⟨(closed_mono hT fuel).1 h i v d j hj,
      (closed_mono hT fuel).2.2.1 h i k j hj,
      thenF_closed_mono hT fuel h i onF onR j hj, ?_⟩
    show ((h.set i fun p => { p with closed := true }).get j).closed = true
    rw [Heap.get_set]
    split
    · rfl
    · exact hj
  · intro hcl
    exact thenF_closed_fails hT fuel h i onF onR hcl
  · intro hrv hi hok
    exact thenF_rvalue_closes hT fuel h i cb onR hrv hi hok

/-- Witness for C3 at a concrete two-promise heap. -/
theorem C3_closed_flag_witness :
    (((settleF true 5 (closeF ⟨[dPimpl, dPimpl], [], [], []⟩ 0) 1 (.int 3) true).2.get 0).closed
        = true)
    ∧ (thenF true 5 (closeF ⟨[dPimpl, dPimpl], [], [], []⟩ 0) 0 none none
        = (.error (.logic .closedE), closeF ⟨[dPimpl, dPimpl], [], [], []⟩ 0))
    ∧ (((thenF true 5 (⟨[dPimpl, dPimpl], [], [], []⟩ : Heap) 1
          (some { fn := .pure .idF, argType := .anyT, resultType := .anyT, rvalue := true })
          none).2.get 1).closed = true) := by
  refine ⟨?_, ?_, ?_⟩
  · exact ((C3_closed_flag true 5 (closeF ⟨[dPimpl, dPimpl], [], [], []⟩ 0) 1 0 0 (.int 3) true
      none none { fn := .pure .idF, argType := .anyT, resultType := .anyT }).1 (by decide)).1
  · exact (C3_closed_flag true 5 (closeF ⟨[dPimpl, dPimpl], [], [], []⟩ 0) 0 0 0 (.int 3) true
      none none { fn := .pure .idF, argType := .anyT, resultType := .anyT }).2.1 (by decide)
  · exact (C3_closed_flag true 5 ⟨[dPimpl, dPimpl], [], [], []⟩ 1 0 0 (.int 3) true
      none none { fn := .pure .idF, argType := .anyT, resultType := .anyT, rvalue := true }).2.2
      rfl (by decide) ⟨2, rfl⟩

/-- C5: when the on_fulfil callback's declared argument type does not match
the settled value's type, the raised bad cast is first offered to the
installed bad-cast handler (the default handler re-throws, `hT = true`): if
the handler throws the error propagates synchronously out of settle with
the heap unchanged apart from the log; if it returns normally the outcome
becomes Rejected(TypeMismatch), committed on the promise and propagated to
its dependent, with the handler consulted exactly once. -/
theorem C5_bad_cast_handler (fuel : Nat) (h : Heap) (i j : Nat) (cb : Callback)
    (v : Val)
    (hof : (h.get i).onFulfil = some cb)
    (hvt : ¬ tyOf v = .excT)
    (hcast : ¬ (cb.argType = .anyT ∨ cb.argType = .voidT ∨ tyOf v = cb.argType))
    (hunset : tyOf (h.get i).value = .unsetT)
    (hup : (h.get i).upstream = none)
    (hdown : (h.get i).downstream = [j])
    (hilt : i < h.ps.length) (hjlt : j < h.ps.length) (hji : ¬ j = i)
    (hjr : (h.get j).onReject = none)
    (hjd : (h.get j).downstream = []) :
    (settleF true (fuel + 3) h i v true
        = (.error .badCastThrown, (h.logEv (.invoke i true v)).logEv .badCastCall))
    ∧ (settleF false (fuel + 3) h i v true).1 = .ok ()
    ∧ (((settleF false (fuel + 3) h i v true).2.get i).value = .exc .badCast)
    ∧ (((settleF false (fuel + 3) h i v true).2.get j).value = .exc .badCast)
    ∧ (settleF false (fuel + 3) h i v true).2.log
        = h.log ++ [.invoke i true v, .badCastCall] := by
  have hCi : ((commitAndFlag ((h.logEv (.invoke i true v)).logEv .badCastCall) i
      (.exc .badCast)).get i).value = Val.exc .badCast := by
    rw [commitAndFlag_get, if_pos ⟨rfl, hilt⟩]
  have hCj : (commitAndFlag ((h.logEv (.invoke i true v)).logEv .badCastCall) i
      (.exc .badCast)).get j = h.get j := by
    rw [commitAndFlag_get_ne _ _ _ _ hji]; rfl
  have hstep1 : settleF false (fuel + 3) h i v true
      = propagateF false (fuel + 2)
          (commitAndFlag ((h.logEv (.invoke i true v)).logEv .badCastCall) i
            (.exc .badCast)) i [j] := by
    simp [settleF, dispatchF, invokeCb, hof, hvt, hcast, hunset, hup, hdown,
      Heap.logEv_get]
  have hstep2 : propagateF false (fuel + 2)
      (commitAndFlag ((h.logEv (.invoke i true v)).logEv .badCastCall) i
        (.exc .badCast)) i [j]
      = (.ok (), commitAndFlag
          (commitAndFlag ((h.logEv (.invoke i true v)).logEv .badCastCall) i
            (.exc .badCast)) j (.exc .badCast)) := by
    simp [propagateF, settleF, dispatchF, hCi, hCj, hjr, hjd, tyOf]
  have heq := hstep1.trans hstep2
  refine ⟨?_, ?_, ?_, ?_, ?_⟩
  · simp [settleF, dispatchF, invokeCb, hof, hvt, hcast, hunset]
  · rw [heq]
  · rw [heq]
    show ((commitAndFlag _ j _).get i).value = _
    rw [commitAndFlag_get_ne _ _ _ _ (fun hh => hji hh.symm)]
    exact hCi
  · rw [heq]
    show ((commitAndFlag _ j _).get j).value = _
    rw [commitAndFlag_get, if_pos ⟨rfl, by
      rw [commitAndFlag_ps_length]; exact hjlt⟩]
  · rw [heq]
    show (commitAndFlag _ j _).log = _
    simp [commitAndFlag, Heap.set, Heap.logEv]

/-- Witness for C5: a promise with an `int`-typed fulfil callback and one
dependent, settled with a string. -/
theorem C5_bad_cast_handler_witness :
    (settleF true 5 (⟨[{ dPimpl with onFulfil := some { fn := .pure .idF, argType := .intT, resultType := .anyT }, downstream := [1] }, dPimpl], [], [], []⟩ : Heap) 0 (.str "s") true
      = (.error .badCastThrown, ((⟨[{ dPimpl with onFulfil := some { fn := .pure .idF, argType := .intT, resultType := .anyT }, downstream := [1] }, dPimpl], [], [], []⟩ : Heap).logEv (.invoke 0 true (.str "s"))).logEv .badCastCall))
    ∧ (settleF false 5 (⟨[{ dPimpl with onFulfil := some { fn := .pure .idF, argType := .intT, resultType := .anyT }, downstream := [1] }, dPimpl], [], [], []⟩ : Heap) 0 (.str "s") true).1 = .ok ()
    ∧ (((settleF false 5 (⟨[{ dPimpl with onFulfil := some { fn := .pure .idF, argType := .intT, resultType := .anyT }, downstream := [1] }, dPimpl], [], [], []⟩ : Heap) 0 (.str "s") true).2.get 0).value = .exc .badCast)
    ∧ (((settleF false 5 (⟨[{ dPimpl with onFulfil := some { fn := .pure .idF, argType := .intT, resultType := .anyT }, downstream := [1] }, dPimpl], [], [], []⟩ : Heap) 0 (.str "s") true).2.get 1).value = .exc .badCast)
    ∧ (settleF false 5 (⟨[{ dPimpl with onFulfil := some { fn := .pure .idF, argType := .intT, resultType := .anyT }, downstream := [1] }, dPimpl], [], [], []⟩ : Heap) 0 (.str "s") true).2.log = [] ++ [.invoke 0 true (.str "s"), .badCastCall] :=
  C5_bad_cast_handler 2 (⟨[{ dPimpl with onFulfil := some { fn := .pure .idF, argType := .intT, resultType := .anyT }, downstream := [1] }, dPimpl], [], [], []⟩ : Heap) 0 1 { fn := .pure .idF, argType := .intT, resultType := .anyT } (.str "s")
    rfl (by decide) (by decide) rfl rfl rfl (by decide) (by decide) (by decide) rfl rfl

theorem thenHeap_flags (h : Heap) (i : Nat) (onF onR : Option Callback) :
    (thenHeap h i onF onR).flags = h.flags := by
  simp only [thenHeap]
  split <;> rfl

/-- `Delay::cancel` when a live queue entry for `p` exists: the entry is
removed, the promise is rejected with `e`, and the call returns true. -/
theorem delayCancel_found (hT : Bool) (fuel : Nat) (h : Heap)
    (dq : List (Nat × Nat)) (p : Nat) (e : Err) (dq2 : List (Nat × Nat))
    (hp : p < h.ps.length)
    (hrej : (h.get p).onReject = none)
    (hval : tyOf (h.get p).value = .unsetT) (hup : (h.get p).upstream = none)
    (hdown : (h.get p).downstream = [])
    (hrm : removeFirst dq p = some dq2) :
    ∃ hD : Heap, delayCancel hT (fuel + 4) h dq p e = (.ok true, hD, dq2)
      ∧ (hD.get p).value = .exc e ∧ (hD.get p).settledFlag = true := by
  rw [show fuel + 4 = fuel + 3 + 1 from rfl]
  simp only [delayCancel, newPromise]
  have hCp : (thenHeap { ps := h.ps ++ [{ upstream := dPimpl.upstream, downstream := dPimpl.downstream, value := dPimpl.value, closed := dPimpl.closed, settledFlag := dPimpl.settledFlag, undelivered := dPimpl.undelivered, onFulfil := none, onReject := none }], ctxs := h.ctxs, flags := h.flags ++ [true], log := h.log } h.ps.length none (some { fn := FnSpec.setFlagFalse h.flags.length, argType := Ty.excT, resultType := Ty.nullT, rvalue := false })).get p = h.get p := by
    rw [thenHeap_get_other _ _ _ _ _ (by omega) (by simp; omega)]
    simp only [Heap.get, list_getD_append]
    rw [if_pos hp]
  rw [thenF_unsettled]
  case hcl => simp [Heap.get, list_getD_append, dPimpl]
  case hset => simp [Heap.get, list_getD_append, dPimpl]
  case hi => simp
  case htc => exact trivial
  dsimp only
  rw [hrm]
  dsimp only
  rw [settle_exc_norej hT (fuel + 3)]
  case hrej => rw [hCp]; exact hrej
  case hval => rw [hCp]; exact hval
  case hup => rw [hCp]; exact hup
  rw [hCp, hdown]
  rw [if_pos rfl]
  dsimp only
  rw [commitAndFlag_flags, thenHeap_flags]
  simp only [list_getD_append]
  rw [if_neg (by omega)]
  simp only [Nat.sub_self, List.getD_cons_zero]
  refine ⟨_, rfl, ?_, ?_⟩ <;>
    rw [commitAndFlag_get,
      if_pos ⟨rfl, by rw [thenHeap_ps_length]
                      simp only [List.length_append, List.length_cons, List.length_nil]
                      omega⟩]

theorem Heap.get_def (h : Heap) (j : Nat) : h.get j = h.ps.getD j dPimpl := rfl

/-- Non-direct settle with an exception of a dependent whose reject callback
is the flag-clearing lambda of `Delay::cancel`: the flag is cleared and the
dependent commits `Null`. -/
theorem settle_flagdep (hT : Bool) (fuel : Nat) (h : Heap) (i fid : Nat) (e : Err)
    (hrej : (h.get i).onReject
      = some { fn := .setFlagFalse fid, argType := .excT, resultType := .nullT })
    (hdown : (h.get i).downstream = []) :
    settleF hT (fuel + 2) h i (.exc e) false =
      (.ok (), commitAndFlag
        { h with flags := h.flags.set fid false,
                 log := h.log ++ [.invoke i false (.exc e)] } i .nullV) := by
  have hrej2 := hrej
  have hdown2 := hdown
  simp [Heap.get_def] at hrej2 hdown2
  simp [settleF, dispatchF, invokeCb, hrej2, hdown2, Heap.logEv, tyOf, Heap.get_def]

theorem Heap.get_mk (ps : List Pimpl) (cs : List AllCtx) (fl : List Bool)
    (lg : List Event) (j : Nat) : (Heap.mk ps cs fl lg).get j = ps.getD j dPimpl := rfl

/-- `Delay::cancel` when no live queue entry for `p` exists: the queue is
unchanged, `p` is untouched and the call returns false (the reject fires the
flag-clearing callback of the fresh target). -/
theorem delayCancel_notfound (hT : Bool) (fuel : Nat) (h : Heap)
    (dq : List (Nat × Nat)) (p : Nat) (e : Err)
    (hp : p < h.ps.length)
    (hrm : removeFirst dq p = none) :
    ∃ hD : Heap, delayCancel hT (fuel + 4) h dq p e = (.ok false, hD, dq)
      ∧ hD.get p = h.get p := by
  rw [show fuel + 4 = fuel + 3 + 1 from rfl]
  simp only [delayCancel, newPromise]
  have hidx : ({ ps := h.ps ++ [{ upstream := dPimpl.upstream, downstream := dPimpl.downstream, value := dPimpl.value, closed := dPimpl.closed, settledFlag := dPimpl.settledFlag, undelivered := dPimpl.undelivered, onFulfil := none, onReject := none }], ctxs := h.ctxs, flags := h.flags ++ [true], log := h.log } : Heap).ps.length = h.ps.length + 1 := by simp
  have hBt : ({ ps := h.ps ++ [{ upstream := dPimpl.upstream, downstream := dPimpl.downstream, value := dPimpl.value, closed := dPimpl.closed, settledFlag := dPimpl.settledFlag, undelivered := dPimpl.undelivered, onFulfil := none, onReject := none }], ctxs := h.ctxs, flags := h.flags ++ [true], log := h.log } : Heap).get h.ps.length = { upstream := dPimpl.upstream, downstream := dPimpl.downstream, value := dPimpl.value, closed := dPimpl.closed, settledFlag := dPimpl.settledFlag, undelivered := dPimpl.undelivered, onFulfil := none, onReject := none } := by
    simp only [Heap.get_def, list_getD_append]
    rw [if_neg (by omega), Nat.sub_self]
    rfl
  have hCt : (thenHeap { ps := h.ps ++ [{ upstream := dPimpl.upstream, downstream := dPimpl.downstream, value := dPimpl.value, closed := dPimpl.closed, settledFlag := dPimpl.settledFlag, undelivered := dPimpl.undelivered, onFulfil := none, onReject := none }], ctxs := h.ctxs, flags := h.flags ++ [true], log := h.log } h.ps.length none (some { fn := FnSpec.setFlagFalse h.flags.length, argType := Ty.excT, resultType := Ty.nullT, rvalue := false })).get h.ps.length
      = { upstream := none, downstream := [h.ps.length + 1], value := Val.unset, closed := false, settledFlag := false, undelivered := false, onFulfil := none, onReject := none } := by
    rw [thenHeap_get_i _ _ _ _ (by simp), hBt, hidx]
    simp [thenRv, dPimpl]
  have hCd : (thenHeap { ps := h.ps ++ [{ upstream := dPimpl.upstream, downstream := dPimpl.downstream, value := dPimpl.value, closed := dPimpl.closed, settledFlag := dPimpl.settledFlag, undelivered := dPimpl.undelivered, onFulfil := none, onReject := none }], ctxs := h.ctxs, flags := h.flags ++ [true], log := h.log } h.ps.length none (some { fn := FnSpec.setFlagFalse h.flags.length, argType := Ty.excT, resultType := Ty.nullT, rvalue := false })).get (h.ps.length + 1)
      = { upstream := some h.ps.length, downstream := [], value := Val.unset, closed := false, settledFlag := false, undelivered := false, onFulfil := none, onReject := some { fn := FnSpec.setFlagFalse h.flags.length, argType := Ty.excT, resultType := Ty.nullT, rvalue := false } } := by
    have hnew := thenHeap_get_new { ps := h.ps ++ [{ upstream := dPimpl.upstream, downstream := dPimpl.downstream, value := dPimpl.value, closed := dPimpl.closed, settledFlag := dPimpl.settledFlag, undelivered := dPimpl.undelivered, onFulfil := none, onReject := none }], ctxs := h.ctxs, flags := h.flags ++ [true], log := h.log } h.ps.length none (some { fn := FnSpec.setFlagFalse h.flags.length, argType := Ty.excT, resultType := Ty.nullT, rvalue := false }) (by simp)
    rw [hidx] at hnew
    rw [hnew]
    simp [dPimpl]
  have hCp : (thenHeap { ps := h.ps ++ [{ upstream := dPimpl.upstream, downstream := dPimpl.downstream, value := dPimpl.value, closed := dPimpl.closed, settledFlag := dPimpl.settledFlag, undelivered := dPimpl.undelivered, onFulfil := none, onReject := none }], ctxs := h.ctxs, flags := h.flags ++ [true], log := h.log } h.ps.length none (some { fn := FnSpec.setFlagFalse h.flags.length, argType := Ty.excT, resultType := Ty.nullT, rvalue := false })).get p = h.get p := by
    rw [thenHeap_get_other _ _ _ _ _ (by omega) (by simp; omega)]
    simp only [Heap.get_def, list_getD_append]
    rw [if_pos hp]
  have hEt : ((commitAndFlag (thenHeap { ps := h.ps ++ [{ upstream := dPimpl.upstream, downstream := dPimpl.downstream, value := dPimpl.value, closed := dPimpl.closed, settledFlag := dPimpl.settledFlag, undelivered := dPimpl.undelivered, onFulfil := none, onReject := none }], ctxs := h.ctxs, flags := h.flags ++ [true], log := h.log } h.ps.length none (some { fn := FnSpec.setFlagFalse h.flags.length, argType := Ty.excT, resultType := Ty.nullT, rvalue := false })) h.ps.length (Val.exc e)).get h.ps.length).value
      = Val.exc e := by
    rw [commitAndFlag_get, if_pos ⟨rfl, by
      rw [thenHeap_ps_length]
      simp only [List.length_append, List.length_cons, List.length_nil]
      omega⟩]
  have hEd : (commitAndFlag (thenHeap { ps := h.ps ++ [{ upstream := dPimpl.upstream, downstream := dPimpl.downstream, value := dPimpl.value, closed := dPimpl.closed, settledFlag := dPimpl.settledFlag, undelivered := dPimpl.undelivered, onFulfil := none, onReject := none }], ctxs := h.ctxs, flags := h.flags ++ [true], log := h.log } h.ps.length none (some { fn := FnSpec.setFlagFalse h.flags.length, argType := Ty.excT, resultType := Ty.nullT, rvalue := false })) h.ps.length (Val.exc e)).get (h.ps.length + 1)
      = { upstream := some h.ps.length, downstream := [], value := Val.unset, closed := false, settledFlag := false, undelivered := false, onFulfil := none, onReject := some { fn := FnSpec.setFlagFalse h.flags.length, argType := Ty.excT, resultType := Ty.nullT, rvalue := false } } := by
    rw [commitAndFlag_get_ne _ _ _ _ (by omega)]
    exact hCd
  rw [thenF_unsettled]
  case hcl => simp [Heap.get_def, list_getD_append, dPimpl]
  case hset => simp [Heap.get_def, list_getD_append, dPimpl]
  case hi => simp
  case htc => exact trivial
  dsimp only
  rw [hrm]
  dsimp only
  rw [settle_exc_norej hT (fuel + 3)]
  case hrej => rw [hCt]
  case hval => rw [hCt]; rfl
  case hup => rw [hCt]
  rw [hCt]
  dsimp only
  rw [if_neg (by simp)]
  simp only [propagateF]
  rw [hEt]
  rw [settle_flagdep hT fuel]
  case hrej => rw [hEd]
  case hdown => rw [hEd]
  dsimp only
  rw [commitAndFlag_flags]
  dsimp only
  rw [commitAndFlag_flags, thenHeap_flags]
  dsimp only
  rw [list_getD_set, if_pos ⟨rfl, by simp⟩]
  have hEp : (commitAndFlag (thenHeap { ps := h.ps ++ [{ upstream := dPimpl.upstream, downstream := dPimpl.downstream, value := dPimpl.value, closed := dPimpl.closed, settledFlag := dPimpl.settledFlag, undelivered := dPimpl.undelivered, onFulfil := none, onReject := none }], ctxs := h.ctxs, flags := h.flags ++ [true], log := h.log } h.ps.length none (some { fn := FnSpec.setFlagFalse h.flags.length, argType := Ty.excT, resultType := Ty.nullT, rvalue := false })) h.ps.length (Val.exc e)).get p = h.get p := by
    rw [commitAndFlag_get_ne _ _ _ _ (by omega)]
    exact hCp
  refine ⟨_, rfl, ?_⟩
  rw [commitAndFlag_get_ne _ _ _ _ (by omega), Heap.get_mk]
  exact hEp

/-- C8: `Delay::cancel(p, e)` locates the pending entry by promise identity:
when a live entry exists it is removed from the queue, `p` is rejected
(settled with the exception `e`) and the call returns true; when no live
entry exists the call returns false with the queue and `p` unchanged; the
overload without an error argument uses the built-in `Cancelled` error. -/
theorem C8_delay_cancel (hT : Bool) (fuel : Nat) (h : Heap)
    (dq : List (Nat × Nat)) (p : Nat) (e : Err)
    (hp : p < h.ps.length)
    (hrej : (h.get p).onReject = none)
    (hval : tyOf (h.get p).value = .unsetT) (hup : (h.get p).upstream = none)
    (hdown : (h.get p).downstream = []) :
    (∀ dq2, removeFirst dq p = some dq2 →
      ∃ hD : Heap, delayCancel hT (fuel + 4) h dq p e = (.ok true, hD, dq2)
        ∧ (hD.get p).value = .exc e ∧ (hD.get p).settledFlag = true)
    ∧ (removeFirst dq p = none →
      ∃ hD : Heap, delayCancel hT (fuel + 4) h dq p e = (.ok false, hD, dq)
        ∧ hD.get p = h.get p)
    ∧ delayCancelDefault hT (fuel + 4) h dq p
        = delayCancel hT (fuel + 4) h dq p .cancelled :=
  ⟨fun dq2 hrm => delayCancel_found hT fuel h dq p e dq2 hp hrej hval hup hdown hrm,
   fun hrm => delayCancel_notfound hT fuel h dq p e hp hrm, rfl⟩

/-- Witness for C8 at a one-promise heap, once with a matching queue entry
and once with an empty queue. -/
theorem C8_delay_cancel_witness :
    (∃ hD : Heap, delayCancel true 5 (⟨[dPimpl], [], [], []⟩ : Heap) [(10, 0)] 0 (.user 7)
        = (.ok true, hD, [])
        ∧ (hD.get 0).value = .exc (.user 7) ∧ (hD.get 0).settledFlag = true)
    ∧ (∃ hD : Heap, delayCancel true 5 (⟨[dPimpl], [], [], []⟩ : Heap) [] 0 (.user 7)
        = (.ok false, hD, [])
        ∧ hD.get 0 = (⟨[dPimpl], [], [], []⟩ : Heap).get 0) :=
  ⟨(C8_delay_cancel true 1 ⟨[dPimpl], [], [], []⟩ [(10, 0)] 0 (.user 7)
      (by decide) rfl rfl rfl rfl).1 [] rfl,
   (C8_delay_cancel true 1 ⟨[dPimpl], [], [], []⟩ [] 0 (.user 7)
      (by decide) rfl rfl rfl rfl).2.1 rfl⟩

theorem push_len (q : CQ) (v : Nat) :
    (CQ.push q v).1.nodes.length = q.nodes.length + 1 := by
  simp [CQ.push, CQ.setNext]

theorem push_head (q : CQ) (v : Nat) : (CQ.push q v).1.head = q.head := rfl

theorem push_tail (q : CQ) (v : Nat) : (CQ.push q v).1.tail = q.nodes.length := rfl

theorem push_getNode (q : CQ) (v : Nat) (j : Nat) (hj : j < q.nodes.length)
    (hjt : ¬ j = q.tail) : (CQ.push q v).1.getNode j = q.getNode j := by
  simp only [CQ.push, CQ.setNext, CQ.getNode, list_getD_set, list_getD_append]
  rw [if_neg (fun hc => hjt hc.1), if_pos hj]

theorem push_getNode_tail (q : CQ) (v : Nat) (ht : q.tail < q.nodes.length) :
    (CQ.push q v).1.getNode q.tail
      = { q.getNode q.tail with next := some q.nodes.length } := by
  simp only [CQ.push, CQ.setNext, CQ.getNode, list_getD_set, list_getD_append]
  rw [if_pos ⟨trivial, by simp only [List.length_append, List.length_cons, List.length_nil]; omega⟩,
    if_pos ht]

theorem push_getNode_new (q : CQ) (v : Nat) (ht : q.tail < q.nodes.length) :
    (CQ.push q v).1.getNode q.nodes.length = { value := v, next := none } := by
  simp only [CQ.push, CQ.setNext, CQ.getNode, list_getD_set, list_getD_append]
  rw [if_neg (fun hc => absurd hc.1 (by omega)), if_neg (by omega), Nat.sub_self]
  rfl

theorem push_wasEmpty (q : CQ) (v : Nat) (ht : q.tail < q.nodes.length) :
    (CQ.push q v).2 = decide (¬ (q.getNode q.tail).next = none) := by
  simp only [CQ.push, CQ.setNext, CQ.getNode, list_getD_append]
  rw [if_pos ht]

theorem linksB_head_irrel (q : CQ) (hh : Nat) : ∀ (c : List Nat) (i : Nat),
    linksB { q with head := hh } i c = linksB q i c := by
  intro c
  induction c with
  | nil => intro i; rfl
  | cons j rest ih => intro i; simp [linksB, ih, CQ.getNode]

theorem linksB_bounds (q : CQ) : ∀ (c : List Nat) (i : Nat), linksB q i c = true →
    ∀ x, x ∈ c → x < q.nodes.length := by
  intro c
  induction c with
  | nil => intro i h x hx; simp at hx
  | cons j rest ih =>
    intro i h x hx
    simp [linksB] at h
    rcases List.mem_cons.mp hx with he | hm
    · rw [he]; exact h.1
    · exact ih j h.2.2 x hm

theorem linksB_tail_none (q : CQ) : ∀ (c : List Nat) (i : Nat), linksB q i c = true →
    (q.getNode q.tail).next = none := by
  intro c
  induction c with
  | nil =>
    intro i h
    simp [linksB] at h
    rw [← h.1]; exact h.2
  | cons j rest ih =>
    intro i h
    simp [linksB] at h
    exact ih j h.2.2

theorem linksB_tail_mem (q : CQ) : ∀ (c : List Nat) (i : Nat), linksB q i c = true →
    c = [] ∨ q.tail ∈ c := by
  intro c
  induction c with
  | nil => intro i h; exact Or.inl rfl
  | cons j rest ih =>
    intro i h
    simp [linksB] at h
    rcases ih j h.2.2 with he | hm
    · rw [he] at h
      simp [linksB] at h
      right
      rw [← h.2.2.1]
      exact List.mem_cons_self _ _
    · exact Or.inr (List.mem_cons_of_mem _ hm)

theorem nodupB_append_fresh : ∀ (c : List Nat) (n : Nat), nodupB c = true →
    (∀ x, x ∈ c → x < n) → nodupB (c ++ [n]) = true := by
  intro c
  induction c with
  | nil => intro n _ _; simp [nodupB]
  | cons x xs ih =>
    intro n h hb
    simp [nodupB] at h ⊢
    refine ⟨⟨h.1, ?_⟩, ih n h.2 fun y hy => hb y (List.mem_cons_of_mem _ hy)⟩
    have := hb x (List.mem_cons_self _ _)
    omega

theorem linksB_push_aux (q : CQ) (v : Nat)
    (hTnone : (q.getNode q.tail).next = none) :
    ∀ (c : List Nat) (i : Nat), i < q.nodes.length → linksB q i c = true →
      linksB (CQ.push q v).1 i (c ++ [q.nodes.length]) = true := by
  intro c
  induction c with
  | nil =>
    intro i hi h
    simp only [linksB, decide_eq_true_eq, Bool.and_eq_true] at h
    obtain ⟨h1, h2⟩ := h
    subst h1
    simp only [List.nil_append, linksB, Bool.and_eq_true, decide_eq_true_eq]
    rw [push_getNode_tail q v hi, push_getNode_new q v hi]
    refine ⟨by rw [push_len]; omega, rfl, by rw [push_tail], rfl⟩
  | cons j rest ih =>
    intro i hi h
    simp only [linksB, decide_eq_true_eq, Bool.and_eq_true] at h
    obtain ⟨hj, hnx, hrest⟩ := h
    have hit : ¬ i = q.tail := by
      intro he
      rw [he, hTnone] at hnx
      exact absurd hnx (by simp)
    simp only [List.cons_append, linksB, Bool.and_eq_true, decide_eq_true_eq]
    refine ⟨by rw [push_len]; omega, ?_, ih j hj hrest⟩
    rw [push_getNode q v i hi hit]
    exact hnx

/-- push preserves the chain encoding and reports emptiness. -/
theorem cqChain_push (q : CQ) (v : Nat) (c : List Nat) (hch : cqChain q c = true) :
    cqChain (CQ.push q v).1 (c ++ [q.nodes.length]) = true
    ∧ ((CQ.push q v).2 = true ↔ c = []) := by
  simp only [cqChain, Bool.and_eq_true, decide_eq_true_eq] at hch
  obtain ⟨⟨hhl, hnd⟩, hm⟩ := hch
  rcases c with _ | ⟨x, rest⟩
  · simp only [Bool.and_eq_true, decide_eq_true_eq] at hm
    obtain ⟨hht, hsl⟩ := hm
    have hhl2 : q.tail < q.nodes.length := hht ▸ hhl
    constructor
    · simp only [List.nil_append, cqChain, Bool.and_eq_true, decide_eq_true_eq]
      refine ⟨⟨?_, ?_⟩, ?_⟩
      · rw [push_head, push_len]; omega
      · rw [push_head]
        have hne : ¬ q.head = q.nodes.length := by omega
        simp [nodupB, hne]
      · rw [push_head]
        simp only [linksB, Bool.and_eq_true, decide_eq_true_eq]
        rw [hht, push_getNode_tail q v hhl2, push_getNode_new q v hhl2]
        exact ⟨by rw [push_len]; omega, rfl, by rw [push_tail], rfl⟩
    · rw [push_wasEmpty q v hhl2]
      rw [hht] at hsl
      simp [hsl]
  · have htl_mem : q.tail ∈ x :: rest := by
      rcases linksB_tail_mem q _ _ hm with he | hmem
      · exact absurd he (by simp)
      · exact hmem
    have htl : q.tail < q.nodes.length := linksB_bounds q _ _ hm _ htl_mem
    have hTnone := linksB_tail_none q _ _ hm
    constructor
    · simp only [List.cons_append, cqChain, Bool.and_eq_true, decide_eq_true_eq]
      refine ⟨⟨?_, ?_⟩, ?_⟩
      · rw [push_head, push_len]; omega
      · rw [push_head]
        have hb : ∀ y, y ∈ q.head :: x :: rest → y < q.nodes.length := by
          intro y hy
          rcases List.mem_cons.mp hy with he | hmem
          · rw [he]; exact hhl
          · exact linksB_bounds q _ _ hm _ hmem
        have := nodupB_append_fresh (q.head :: x :: rest) q.nodes.length hnd hb
        simpa using this
      · rw [push_head]
        have := linksB_push_aux q v hTnone (x :: rest) q.head hhl hm
        simpa using this
    · rw [push_wasEmpty q v htl]
      simp [hTnone]

/-- pop removes the first chain element (restoring the sentinel self-loop
when it was the last), and returns none exactly on an empty queue. -/
theorem cqChain_pop (q : CQ) (c : List Nat) (hch : cqChain q c = true) :
    ((CQ.pop q).2 = none ↔ c = [])
    ∧ (∀ x rest, c = x :: rest →
        (CQ.pop q).2 = some (q.getNode x).value
        ∧ cqChain (CQ.pop q).1 rest = true) := by
  simp only [cqChain, Bool.and_eq_true, decide_eq_true_eq] at hch
  obtain ⟨⟨hhl, hnd⟩, hm⟩ := hch
  rcases c with _ | ⟨x, rest⟩
  · simp only [Bool.and_eq_true, decide_eq_true_eq] at hm
    obtain ⟨hht, hsl⟩ := hm
    constructor
    · simp [CQ.pop, hsl]
    · intro x rest h
      exact absurd h (by simp)
  · simp only [linksB, Bool.and_eq_true, decide_eq_true_eq] at hm
    obtain ⟨hx, hnx, hrest⟩ := hm
    have hxh : ¬ x = q.head := by
      simp only [nodupB, Bool.and_eq_true, decide_eq_true_eq] at hnd
      intro he
      exact hnd.1 (by simp [he])
    rcases rest with _ | ⟨y, r2⟩
    · simp only [linksB, Bool.and_eq_true, decide_eq_true_eq] at hrest
      obtain ⟨hxt, hxn⟩ := hrest
      have hpop : CQ.pop q = (CQ.setNext { q with head := x } x (some x),
          some (q.getNode x).value) := by
        simp only [CQ.pop]
        rw [hnx]
        dsimp only
        rw [if_pos hxh]
        have hq1 : CQ.getNode { q with head := x } x = q.getNode x := rfl
        rw [hq1, hxn]
        simp
      rw [hpop]
      refine ⟨by simp, ?_⟩
      intro x2 rest2 h2
      injection h2 with h2a h2b
      subst h2a
      subst h2b
      refine ⟨rfl, ?_⟩
      simp only [cqChain, CQ.setNext, Bool.and_eq_true, decide_eq_true_eq]
      refine ⟨⟨?_, ?_⟩, ?_, ?_⟩
      · simp only [List.length_set]
        omega
      · simp [nodupB]
      · exact hxt
      · simp only [CQ.getNode, list_getD_set, List.length_set]
        rw [if_pos ⟨trivial, by omega⟩]
    · simp only [linksB, Bool.and_eq_true, decide_eq_true_eq] at hrest
      obtain ⟨hy, hxy, hr2⟩ := hrest
      have hpop : CQ.pop q = ({ q with head := x }, some (q.getNode x).value) := by
        simp only [CQ.pop]
        rw [hnx]
        dsimp only
        rw [if_pos hxh]
        have hq1 : CQ.getNode { q with head := x } x = q.getNode x := rfl
        rw [hq1, hxy]
        rw [if_neg (by simp)]
      rw [hpop]
      refine ⟨by simp, ?_⟩
      intro x2 rest2 h2
      injection h2 with h2a h2b
      subst h2a
      subst h2b
      refine ⟨rfl, ?_⟩
      simp only [cqChain, Bool.and_eq_true, decide_eq_true_eq]
      refine ⟨⟨?_, ?_⟩, ?_⟩
      · exact hx
      · simp only [nodupB, Bool.and_eq_true, decide_eq_true_eq] at hnd ⊢
        exact hnd.2
      · simp only [linksB, Bool.and_eq_true, decide_eq_true_eq]
        have hirr := linksB_head_irrel q x (y :: r2) x
        simp only [linksB, Bool.and_eq_true, decide_eq_true_eq] at hirr
        refine ⟨hy, ?_, ?_⟩
        · have : CQ.getNode { q with head := x } x = q.getNode x := rfl
          rw [this]
          exact hxy
        · rw [linksB_head_irrel q x r2 y]
          exact hr2

/-- C7: on any well-formed queue state (chain witness `c`): push returns
true iff the queue was empty immediately before the call and preserves the
chain encoding; pop returns none iff the queue is empty, otherwise it pops
the first element's value and preserves the encoding (restoring the
sentinel self-loop when removing the last element); the head sentinel's
next points to itself exactly when the queue is empty, as it does in the
freshly constructed queue. -/
theorem C7_concurrent_queue (q : CQ) (v : Nat) (c : List Nat)
    (hch : cqChain q c = true) :
    ((CQ.push q v).2 = true ↔ c = [])
    ∧ cqChain (CQ.push q v).1 (c ++ [q.nodes.length]) = true
    ∧ ((CQ.pop q).2 = none ↔ c = [])
    ∧ (∀ x rest, c = x :: rest →
        (CQ.pop q).2 = some (q.getNode x).value
        ∧ cqChain (CQ.pop q).1 rest = true)
    ∧ ((q.getNode q.head).next = some q.head ↔ c = [])
    ∧ cqChain CQ.init [] = true := by
  refine ⟨(cqChain_push q v c hch).2, (cqChain_push q v c hch).1,
    (cqChain_pop q c hch).1, (cqChain_pop q c hch).2, ?_, by decide⟩
  simp only [cqChain, Bool.and_eq_true, decide_eq_true_eq] at hch
  obtain ⟨⟨hhl, hnd⟩, hm⟩ := hch
  constructor
  · intro hsl
    rcases c with _ | ⟨x, rest⟩
    · rfl
    · exfalso
      simp only [linksB, Bool.and_eq_true, decide_eq_true_eq] at hm
      rw [hsl] at hm
      have hx : x = q.head := by
        have := hm.2.1
        injection this with hh
        exact hh.symm
      simp only [nodupB, Bool.and_eq_true, decide_eq_true_eq] at hnd
      exact hnd.1 (by simp [hx])
  · intro he
    subst he
    simp only [Bool.and_eq_true, decide_eq_true_eq] at hm
    exact hm.2

/-- Witness for C7 on the freshly constructed queue. -/
theorem C7_concurrent_queue_witness :
    ((CQ.push CQ.init 42).2 = true ↔ ([] : List Nat) = [])
    ∧ cqChain (CQ.push CQ.init 42).1 ([] ++ [CQ.init.nodes.length]) = true
    ∧ ((CQ.pop CQ.init).2 = none ↔ ([] : List Nat) = [])
    ∧ (∀ x rest, ([] : List Nat) = x :: rest →
        (CQ.pop CQ.init).2 = some (CQ.init.getNode x).value
        ∧ cqChain (CQ.pop CQ.init).1 rest = true)
    ∧ ((CQ.init.getNode CQ.init.head).next = some CQ.init.head ↔ ([] : List Nat) = [])
    ∧ cqChain CQ.init [] = true :=
  C7_concurrent_queue CQ.init 42 [] (by decide)

theorem find?_append_single {α : Type} (l : List α) (a : α) (p : α → Bool) :
    (l ++ [a]).find? p = match l.find? p with
      | some x => some x
      | none => if p a then some a else none := by
  induction l with
  | nil => cases hpa : p a <;> simp [List.find?_cons, hpa]
  | cons b bs ih => cases hpb : p b <;> simp [List.find?_cons, hpb, ih]

theorem lookupV_append (applied : List (Nat × Val)) (i : Nat) (v : Val) (k : Nat) :
    lookupV (applied ++ [(i, v)]) k =
      match lookupV applied k with
      | some w => some w
      | none => if i = k then some v else none := by
  simp only [lookupV, find?_append_single]
  rcases hf : applied.find? (fun pr => decide (pr.1 = k)) with _ | x
  · rw [hf]
    by_cases hik : i = k <;> simp [hik]
  · rw [hf]
    simp

theorem firstRejectV_append (applied : List (Nat × Val)) (i : Nat) (v : Val) :
    firstRejectV (applied ++ [(i, v)]) =
      match firstRejectV applied with
      | some w => some w
      | none => if tyOf v = .excT then some v else none := by
  simp only [firstRejectV, find?_append_single]
  rcases hf : applied.find? (fun pr => decide (tyOf pr.2 = .excT)) with _ | x
  · rw [hf]
    by_cases hv : tyOf v = .excT <;> simp [hv]
  · rw [hf]
    simp

theorem fulfilCount_append (applied : List (Nat × Val)) (i : Nat) (v : Val) :
    fulfilCount (applied ++ [(i, v)]) =
      fulfilCount applied + (if tyOf v = .excT then 0 else 1) := by
  by_cases hv : tyOf v = .excT <;>
    simp [fulfilCount, List.filter_append, hv]

theorem slotVal_append_ne (applied : List (Nat × Val)) (i : Nat) (v : Val) (k : Nat)
    (hk : ¬ i = k) : slotVal (applied ++ [(i, v)]) k = slotVal applied k := by
  simp only [slotVal, lookupV_append]
  rcases lookupV applied k with _ | w
  · simp [hk]
  · rfl

theorem slotVal_append_eq (applied : List (Nat × Val)) (i : Nat) (v : Val)
    (hnone : lookupV applied i = none) :
    slotVal (applied ++ [(i, v)]) i = if tyOf v = .excT then .unset else v := by
  simp only [slotVal, lookupV_append, hnone]
  simp

theorem slotVal_none (applied : List (Nat × Val)) (k : Nat)
    (hnone : lookupV applied k = none) : slotVal applied k = .unset := by
  simp [slotVal, hnone]

theorem slotsOf_append (N : Nat) (applied : List (Nat × Val)) (i : Nat) (v : Val)
    (hnone : lookupV applied i = none) :
    slotsOf N (applied ++ [(i, v)])
      = (slotsOf N applied).set i (if tyOf v = .excT then .unset else v) := by
  apply List.ext_getElem
  · simp [slotsOf]
  · intro n h1 h2
    simp only [slotsOf, List.getElem_map, List.getElem_range, List.getElem_set]
    by_cases hn : i = n
    · subst hn
      rw [if_pos rfl, slotVal_append_eq applied i v hnone]
    · rw [if_neg hn, slotVal_append_ne applied i v n hn]

theorem slotsOf_append_rej (N : Nat) (applied : List (Nat × Val)) (i : Nat) (v : Val)
    (hnone : lookupV applied i = none) (hv : tyOf v = .excT) :
    slotsOf N (applied ++ [(i, v)]) = slotsOf N applied := by
  rw [slotsOf_append N applied i v hnone, if_pos hv]
  apply List.ext_getElem
  · simp
  · intro n h1 h2
    simp only [List.getElem_set]
    by_cases hn : i = n
    · subst hn
      rw [if_pos rfl]
      simp only [slotsOf, List.getElem_map, List.getElem_range]
      rw [slotVal_none applied i hnone]
    · rw [if_neg hn]

theorem lookupV_eq_none (applied : List (Nat × Val)) (k : Nat) :
    lookupV applied k = none ↔ k ∉ applied.map Prod.fst := by
  simp only [lookupV, Option.map_eq_none', List.find?_eq_none, List.mem_map,
    decide_eq_true_eq]
  constructor
  · rintro H ⟨pr, hpr, he⟩
    exact H pr hpr (by rw [he])
  · intro H pr hpr hpe
    exact H ⟨pr, hpr, hpe⟩

theorem fulfilCount_le (applied : List (Nat × Val)) :
    fulfilCount applied ≤ applied.length :=
  List.length_filter_le _ _

theorem applied_length_le (N : Nat) (applied : List (Nat × Val)) (i : Nat)
    (hnd : (applied.map Prod.fst).Nodup) (hlt : ∀ pr ∈ applied, pr.1 < N)
    (hi : i < N) (hni : lookupV applied i = none) :
    applied.length + 1 ≤ N := by
  have hmem : ∀ x ∈ applied.map Prod.fst, x ∈ (Finset.range N).erase i := by
    intro x hx
    obtain ⟨pr, hpr, he⟩ := List.mem_map.mp hx
    rw [Finset.mem_erase, Finset.mem_range]
    refine ⟨?_, he ▸ hlt pr hpr⟩
    intro hxi
    exact (lookupV_eq_none applied i).mp hni (hxi ▸ hx)
  have hsub : (applied.map Prod.fst).toFinset ⊆ (Finset.range N).erase i := by
    intro x hx
    exact hmem x (List.mem_toFinset.mp hx)
  have hcard := Finset.card_le_card hsub
  rw [List.toFinset_card_of_nodup hnd] at hcard
  rw [Finset.card_erase_of_mem (Finset.mem_range.mpr hi), Finset.card_range] at hcard
  have hlen : (applied.map Prod.fst).length = applied.length := List.length_map _ _
  omega

theorem find?_some_prop {α : Type} (p : α → Bool) : ∀ (l : List α) (a : α),
    l.find? p = some a → a ∈ l ∧ p a = true := by
  intro l
  induction l with
  | nil => intro a h; simp [List.find?] at h
  | cons b bs ih =>
    intro a h
    rw [List.find?_cons] at h
    cases hp : p b
    · rw [hp] at h
      simp only [Bool.false_eq_true, if_false] at h
      obtain ⟨hm, hpa⟩ := ih a h
      exact ⟨List.mem_cons_of_mem _ hm, hpa⟩
    · rw [hp] at h
      simp only [if_true] at h
      injection h with hba
      subst hba
      exact ⟨List.mem_cons_self _ _, hp⟩

theorem firstRejectV_some_count (applied : List (Nat × Val)) (r : Val)
    (hr : firstRejectV applied = some r) :
    fulfilCount applied + 1 ≤ applied.length := by
  simp only [firstRejectV, Option.map_eq_some'] at hr
  obtain ⟨pr, hfind, _⟩ := hr
  obtain ⟨hmem, hprop⟩ := find?_some_prop _ applied pr hfind
  simp only [decide_eq_true_eq] at hprop
  have : fulfilCount applied < applied.length := by
    apply List.length_filter_lt_length_iff_exists.mpr
    exact ⟨pr, hmem, by simp [hprop]⟩
  omega

theorem firstRejectV_none_count (applied : List (Nat × Val))
    (hr : firstRejectV applied = none) :
    fulfilCount applied = applied.length := by
  simp only [firstRejectV, Option.map_eq_none', List.find?_eq_none,
    decide_eq_true_eq] at hr
  have : applied.filter (fun pr => decide (¬ tyOf pr.2 = Ty.excT)) = applied := by
    apply List.filter_eq_self.mpr
    intro pr hpr
    simp [hr pr hpr]
  rw [fulfilCount, this]

theorem getElem?_set_getD {α : Type} (l : List α) (i j : Nat) (a d : α) :
    ((l.set i a)[j]?).getD d = if j = i ∧ i < l.length then a else (l[j]?).getD d := by
  have := list_getD_set l i j a d
  simpa [List.getD_eq_getElem?_getD] using this

theorem getElem?_append_getD {α : Type} (l l2 : List α) (j : Nat) (d : α) :
    ((l ++ l2)[j]?).getD d
      = if j < l.length then (l[j]?).getD d else (l2[j - l.length]?).getD d := by
  have := list_getD_append l l2 j d
  simpa [List.getD_eq_getElem?_getD] using this

/-- Settling (non-directly) a dependent carrying the `Promise::all` fulfil
lambda when this is not the last outstanding input: the slot is written and
the count decremented. -/
theorem settle_allFulfil_dep (hT : Bool) (fuel : Nat) (h : Heap) (d cid k : Nat)
    (v : Val)
    (hful : (h.get d).onFulfil = some (aFulfilCb cid k))
    (hdown : (h.get d).downstream = [])
    (hv : ¬ tyOf v = .excT)
    (hcnt : ¬ (h.getCtx cid).count = 1)
    (hcl : cid < h.ctxs.length) :
    settleF hT (fuel + 3) h d v false =
      (.ok (), commitAndFlag
        (((h.logEv (.invoke d true v)).setCtx cid
            fun c => { c with values := c.values.set k v }).setCtx cid
            fun c => { c with count := c.count - 1 }) d .nullV) := by
  have hful2 := hful
  have hdown2 := hdown
  have hcnt2 := hcnt
  simp [Heap.get, aFulfilCb] at hful2 hdown2
  simp [Heap.getCtx, hcl] at hcnt2
  simp [settleF, dispatchF, invokeCb, aFulfilCb, commitAndFlag, Heap.set,
    Heap.setCtx, Heap.getCtx, Heap.get, Heap.logEv, getElem?_set_getD,
    hful2, hdown2, hcnt2, hv, hcl]

/-- Settling a dependent carrying the `Promise::all` fulfil lambda when this
is the last outstanding input: the slot is written, the count reaches zero
and the combined promise `t` is settled with the completed vector. -/
theorem settle_allFulfil_last (hT : Bool) (fuel : Nat) (h : Heap) (d cid k t : Nat)
    (v : Val)
    (hful : (h.get d).onFulfil = some (aFulfilCb cid k))
    (hdown : (h.get d).downstream = [])
    (hv : ¬ tyOf v = .excT)
    (hcnt : (h.getCtx cid).count = 1)
    (htgt : (h.getCtx cid).target = t)
    (hcl : cid < h.ctxs.length)
    (htd : ¬ t = d)
    (ht1 : (h.get t).onFulfil = none) (ht2 : (h.get t).onReject = none)
    (ht3 : tyOf (h.get t).value = .unsetT) (ht4 : (h.get t).upstream = none)
    (ht5 : (h.get t).downstream = []) :
    settleF hT (fuel + 4) h d v false =
      (.ok (), commitAndFlag (commitAndFlag
        (((h.logEv (.invoke d true v)).setCtx cid
            fun c => { c with values := c.values.set k v }).setCtx cid
            fun c => { c with count := 0 })
        t (.vec ((h.getCtx cid).values.set k v))) d .nullV) := by
  have hful2 := hful
  have hdown2 := hdown
  have hdt : ¬ d = t := fun hh => htd hh.symm
  simp [Heap.get, aFulfilCb] at hful2 hdown2
  have hcnt2 := hcnt
  have htgt2 := htgt
  simp [Heap.getCtx, hcl] at hcnt2 htgt2
  have ht12 := ht1
  have ht22 := ht2
  have ht32 := ht3
  have ht42 := ht4
  have ht52 := ht5
  simp [Heap.get] at ht12 ht22 ht32 ht42 ht52
  simp [settleF, dispatchF, invokeCb, aFulfilCb, commitAndFlag, Heap.set,
    Heap.setCtx, Heap.getCtx, Heap.get, Heap.logEv, getElem?_set_getD,
    hful2, hdown2, hcnt2, htgt2, hv, hcl, hdt, htd,
    ht12, ht22, ht32, ht42, ht52]

/-- Settling a dependent carrying the `Promise::all` reject lambda when no
rejection has been observed yet: the flag is set and the combined promise
`t` is rejected with the error. -/
theorem settle_allReject_first (hT : Bool) (fuel : Nat) (h : Heap) (d cid t : Nat)
    (v : Val)
    (hrej : (h.get d).onReject = some (aRejectCb cid))
    (hdown : (h.get d).downstream = [])
    (hv : tyOf v = .excT)
    (hrf : (h.getCtx cid).rejected = false)
    (htgt : (h.getCtx cid).target = t)
    (hcl : cid < h.ctxs.length)
    (htd : ¬ t = d)
    (ht1 : (h.get t).onFulfil = none) (ht2 : (h.get t).onReject = none)
    (ht3 : tyOf (h.get t).value = .unsetT) (ht4 : (h.get t).upstream = none)
    (ht5 : (h.get t).downstream = []) :
    settleF hT (fuel + 4) h d v false =
      (.ok (), commitAndFlag (commitAndFlag
        ((h.logEv (.invoke d false v)).setCtx cid
            fun c => { c with rejected := true })
        t v) d .nullV) := by
  have hrej2 := hrej
  have hdown2 := hdown
  have hdt : ¬ d = t := fun hh => htd hh.symm
  simp [Heap.get, aRejectCb] at hrej2 hdown2
  have hrf2 := hrf
  have htgt2 := htgt
  simp [Heap.getCtx, hcl] at hrf2 htgt2
  have ht12 := ht1
  have ht22 := ht2
  have ht32 := ht3
  have ht42 := ht4
  have ht52 := ht5
  simp [Heap.get] at ht12 ht22 ht32 ht42 ht52
  simp [settleF, dispatchF, invokeCb, aRejectCb, commitAndFlag, Heap.set,
    Heap.setCtx, Heap.getCtx, Heap.get, Heap.logEv, getElem?_set_getD,
    hrej2, hdown2, hrf2, htgt2, hv, hcl, hdt, htd,
    ht12, ht22, ht32, ht42, ht52]

/-- Settling a dependent carrying the `Promise::all` reject lambda when a
rejection was already observed: only the dependent itself commits. -/
theorem settle_allReject_later (hT : Bool) (fuel : Nat) (h : Heap) (d cid : Nat)
    (v : Val)
    (hrej : (h.get d).onReject = some (aRejectCb cid))
    (hdown : (h.get d).downstream = [])
    (hv : tyOf v = .excT)
    (hrf : (h.getCtx cid).rejected = true)
    (hcl : cid < h.ctxs.length) :
    settleF hT (fuel + 4) h d v false =
      (.ok (), commitAndFlag (h.logEv (.invoke d false v)) d .nullV) := by
  have hrej2 := hrej
  have hdown2 := hdown
  simp [Heap.get, aRejectCb] at hrej2 hdown2
  have hrf2 := hrf
  simp [Heap.getCtx, hcl] at hrf2
  simp [settleF, dispatchF, invokeCb, aRejectCb, commitAndFlag, Heap.set,
    Heap.setCtx, Heap.getCtx, Heap.get, Heap.logEv, getElem?_set_getD,
    hrej2, hdown2, hrf2, hv, hcl]

theorem Heap.setCtx_ps_length (h : Heap) (c : Nat) (f : AllCtx → AllCtx) :
    (h.setCtx c f).ps.length = h.ps.length := rfl

theorem Heap.logEv_ps_length (h : Heap) (e : Event) :
    (h.logEv e).ps.length = h.ps.length := rfl

theorem Heap.setCtx_ctxs (h : Heap) (c : Nat) (f : AllCtx → AllCtx) :
    (h.setCtx c f).ctxs = h.ctxs.set c (f (h.ctxs.getD c dCtx)) := rfl

theorem Heap.logEv_ctxs (h : Heap) (e : Event) : (h.logEv e).ctxs = h.ctxs := rfl

theorem nodup_append_single {α : Type} (l : List α) (a : α) (hnd : l.Nodup)
    (ha : a ∉ l) : (l ++ [a]).Nodup := by
  rw [List.nodup_append]
  exact ⟨hnd, List.nodup_singleton a, fun x hx he => ha ((List.mem_singleton.mp he) ▸ hx)⟩

/-- One settle operation on an unapplied input of the `Promise::all`
scenario succeeds and preserves the invariant. -/
theorem AInv_step (hT : Bool) (fuel : Nat) (N : Nat) (applied : List (Nat × Val))
    (h : Heap) (inv : AInv N applied h) (i : Nat) (v : Val)
    (hi : i < N) (hni : lookupV applied i = none) :
    (settleF hT (fuel + 6) h i v true).1 = .ok ()
    ∧ AInv N (applied ++ [(i, v)]) (settleF hT (fuel + 6) h i v true).2 := by
  have hlen := inv.lenPs
  have hctx := inv.ctxEq
  have hget0 : h.getCtx 0 = { values := slotsOf N applied, count := N - fulfilCount applied, rejected := (firstRejectV applied).isSome, target := N } := by
    rw [Heap.getCtx, hctx]
    rfl
  have hcl0 : 0 < h.ctxs.length := by rw [hctx]; simp
  have hin : h.get i = freshInput N i := by
    have hx := inv.inputs i hi
    rw [hni] at hx
    exact hx
  have hdep : h.get (N + 1 + i) = freshDep i := by
    have hx := inv.deps i hi
    rw [hni] at hx
    exact hx
  have happlen := applied_length_le N applied i inv.appNodup inv.appLt hi hni
  have hfcle : fulfilCount applied ≤ applied.length := fulfilCount_le applied
  have hnd' : ((applied ++ [(i, v)]).map Prod.fst).Nodup := by
    rw [List.map_append]
    exact nodup_append_single _ i inv.appNodup ((lookupV_eq_none applied i).mp hni)
  have hlt' : ∀ pr ∈ applied ++ [(i, v)], pr.1 < N := by
    intro pr hpr
    rcases List.mem_append.mp hpr with hmem | hmem
    · exact inv.appLt pr hmem
    · rw [List.mem_singleton.mp hmem]
      exact hi
  have hlookI : lookupV (applied ++ [(i, v)]) i = some v := by
    rw [lookupV_append, hni]
    simp
  have hlookNe : ∀ k, ¬ i = k →
      lookupV (applied ++ [(i, v)]) k = lookupV applied k := by
    intro k hk
    rw [lookupV_append]
    rcases lookupV applied k with _ | w
    · simp [hk]
    · rfl
  have hfc' := fulfilCount_append applied i v
  have hbd : settleF hT (fuel + 6) h i v true
      = propagateF hT (fuel + 5) (commitAndFlag h i v) i [N + 1 + i] := by
    rw [show fuel + 6 = fuel + 5 + 1 from rfl]
    rw [settle_bare_direct hT (fuel + 5) h i v (by rw [hin]; rfl) (by rw [hin]; rfl)
      (by rw [hin]; rfl) (by rw [hin]; rfl)]
    rw [hin]
    rw [show (freshInput N i).downstream = [N + 1 + i] from rfl]
    rw [if_neg (by simp)]
  have hcv : ((commitAndFlag h i v).get i).value = v := by
    rw [commitAndFlag_get, if_pos ⟨rfl, by omega⟩]
  have hprop : settleF hT (fuel + 6) h i v true
      = match settleF hT (fuel + 4) (commitAndFlag h i v) (N + 1 + i) v false with
        | (.ok _, h2) => (.ok (), h2)
        | (.error e, h2) => (.error e, h2) := by
    rw [hbd]
    simp only [propagateF]
    rw [hcv]
  have hcd : (commitAndFlag h i v).get (N + 1 + i) = freshDep i := by
    rw [commitAndFlag_get_ne _ _ _ _ (by omega), hdep]
  have hcctx0 : (commitAndFlag h i v).getCtx 0 = h.getCtx 0 :=
    commitAndFlag_getCtx h i v 0
  have hccl : 0 < (commitAndFlag h i v).ctxs.length := by
    rw [commitAndFlag_ctxs]
    exact hcl0
  have hcN : (commitAndFlag h i v).get N = h.get N := by
    rw [commitAndFlag_get_ne _ _ _ _ (by omega)]
  have hci : (commitAndFlag h i v).get i = doneInput N i v := by
    rw [commitAndFlag_get, if_pos ⟨rfl, by omega⟩, hin]
    simp [freshInput, doneInput, dPimpl]
  have hcother : ∀ j, ¬ j = i → (commitAndFlag h i v).get j = h.get j := by
    intro j hj
    rw [commitAndFlag_get_ne _ _ _ _ hj]
  by_cases hv : tyOf v = Ty.excT
  · by_cases hrj : (firstRejectV applied).isSome
    · -- a later rejection: only the dependent commits
      obtain ⟨r, hr⟩ := Option.isSome_iff_exists.mp hrj
      have hstep : settleF hT (fuel + 4) (commitAndFlag h i v) (N + 1 + i) v false
          = (.ok (), commitAndFlag ((commitAndFlag h i v).logEv
              (.invoke (N + 1 + i) false v)) (N + 1 + i) .nullV) :=
        settle_allReject_later hT fuel (commitAndFlag h i v) (N + 1 + i) 0 v
          (by rw [hcd]; rfl) (by rw [hcd]; rfl) hv
          (by rw [hcctx0, hget0]; exact hrj) hccl
      set F := commitAndFlag ((commitAndFlag h i v).logEv
          (.invoke (N + 1 + i) false v)) (N + 1 + i) Val.nullV with hF
      have hfe : settleF hT (fuel + 6) h i v true = (.ok (), F) := by
        rw [hprop, hstep]
      have hFne : ∀ j, ¬ j = N + 1 + i → F.get j = (commitAndFlag h i v).get j := by
        intro j hj
        rw [hF, commitAndFlag_get_ne _ _ _ _ hj, Heap.logEv_get]
      have hFd : F.get (N + 1 + i) = doneDep i := by
        rw [hF, commitAndFlag_get,
          if_pos ⟨rfl, by rw [Heap.logEv_ps_length, commitAndFlag_ps_length]; omega⟩]
        rw [Heap.logEv_get, hcd]
        simp [freshDep, doneDep, dPimpl, aFulfilCb, aRejectCb, tyOf]
      refine ⟨by rw [hfe], ?_⟩
      rw [hfe]
      have hfr2 : firstRejectV (applied ++ [(i, v)]) = some r := by
        rw [firstRejectV_append, hr]
      refine ⟨hnd', hlt', ?_, ?_, ?_, ?_, ?_⟩
      · show F.ps.length = 2 * N + 1
        rw [hF, commitAndFlag_ps_length, Heap.logEv_ps_length,
          commitAndFlag_ps_length, hlen]
      · show F.ctxs = _
        rw [hF, commitAndFlag_ctxs, Heap.logEv_ctxs, commitAndFlag_ctxs, hctx]
        rw [slotsOf_append_rej N applied i v hni hv, hfc', if_pos hv, hfr2, hr]
        simp
      · show (match firstRejectV (applied ++ [(i, v)]) with
          | some w => F.get N = rejTarget w
          | none => if fulfilCount (applied ++ [(i, v)]) = N
              then F.get N = fulTarget (slotsOf N (applied ++ [(i, v)]))
              else F.get N = dPimpl)
        rw [hfr2]
        show F.get N = rejTarget r
        rw [hFne N (by omega), hcN]
        have hx := inv.target
        rw [hr] at hx
        exact hx
      · intro k hk
        by_cases hki : k = i
        · subst hki
          rw [hlookI]
          show F.get k = doneInput N k v
          rw [hFne k (by omega), hci]
        · rw [hlookNe k (fun he => hki he.symm)]
          have hx := inv.inputs k hk
          rcases hlk : lookupV applied k with _ | w
          · rw [hlk] at hx
            show F.get k = freshInput N k
            rw [hFne k (by omega), hcother k hki]
            exact hx
          · rw [hlk] at hx
            show F.get k = doneInput N k w
            rw [hFne k (by omega), hcother k hki]
            exact hx
      · intro k hk
        by_cases hki : k = i
        · subst hki
          rw [hlookI]
          show F.get (N + 1 + k) = doneDep k
          exact hFd
        · rw [hlookNe k (fun he => hki he.symm)]
          have hx := inv.deps k hk
          rcases hlk : lookupV applied k with _ | w
          · rw [hlk] at hx
            show F.get (N + 1 + k) = freshDep k
            rw [hFne _ (by omega), hcother _ (by omega)]
            exact hx
          · rw [hlk] at hx
            show F.get (N + 1 + k) = doneDep k
            rw [hFne _ (by omega), hcother _ (by omega)]
            exact hx
    · -- the first rejection: the combined promise is rejected with v
      have hfr0 : firstRejectV applied = none := by
        rcases hy : firstRejectV applied with _ | r
        · rfl
        · exact absurd (by rw [hy]; rfl) hrj
      have htN : h.get N = dPimpl := by
        have hx := inv.target
        rw [hfr0] at hx
        rw [if_neg (by omega)] at hx
        exact hx
      have hstep : settleF hT (fuel + 4) (commitAndFlag h i v) (N + 1 + i) v false
          = (.ok (), commitAndFlag (commitAndFlag
              (((commitAndFlag h i v).logEv (.invoke (N + 1 + i) false v)).setCtx 0
                fun c => { c with rejected := true }) N v) (N + 1 + i) .nullV) :=
        settle_allReject_first hT fuel (commitAndFlag h i v) (N + 1 + i) 0 N v
          (by rw [hcd]; rfl) (by rw [hcd]; rfl) hv
          (by rw [hcctx0, hget0]; show (firstRejectV applied).isSome = false
              rw [hfr0]; rfl)
          (by rw [hcctx0, hget0]) hccl (by omega)
          (by rw [hcN, htN]; rfl) (by rw [hcN, htN]; rfl) (by rw [hcN, htN]; rfl)
          (by rw [hcN, htN]; rfl) (by rw [hcN, htN]; rfl)
      set F := commitAndFlag (commitAndFlag
          (((commitAndFlag h i v).logEv (.invoke (N + 1 + i) false v)).setCtx 0
            fun c => { c with rejected := true }) N v) (N + 1 + i) Val.nullV with hF
      have hfe : settleF hT (fuel + 6) h i v true = (.ok (), F) := by
        rw [hprop, hstep]
      have hlen2 : (((commitAndFlag h i v).logEv (.invoke (N + 1 + i) false v)).setCtx 0
          fun c => { c with rejected := true }).ps.length = 2 * N + 1 := by
        rw [Heap.setCtx_ps_length, Heap.logEv_ps_length, commitAndFlag_ps_length, hlen]
      have hFne : ∀ j, ¬ j = N + 1 + i → ¬ j = N →
          F.get j = (commitAndFlag h i v).get j := by
        intro j hj hjN
        rw [hF, commitAndFlag_get_ne _ _ _ _ hj, commitAndFlag_get_ne _ _ _ _ hjN,
          Heap.setCtx_get, Heap.logEv_get]
      have hFN : F.get N = rejTarget v := by
        rw [hF, commitAndFlag_get_ne _ _ _ _ (by omega), commitAndFlag_get,
          if_pos ⟨rfl, by rw [hlen2]; omega⟩]
        rw [Heap.setCtx_get, Heap.logEv_get, hcN, htN]
        simp [rejTarget, dPimpl, hv]
      have hFd : F.get (N + 1 + i) = doneDep i := by
        rw [hF, commitAndFlag_get,
          if_pos ⟨rfl, by rw [commitAndFlag_ps_length, hlen2]; omega⟩]
        rw [commitAndFlag_get_ne _ _ _ _ (by omega), Heap.setCtx_get, Heap.logEv_get,
          hcd]
        simp [freshDep, doneDep, dPimpl, aFulfilCb, aRejectCb, tyOf]
      refine ⟨by rw [hfe], ?_⟩
      rw [hfe]
      have hfr2 : firstRejectV (applied ++ [(i, v)]) = some v := by
        rw [firstRejectV_append, hfr0]
        simp [hv]
      refine ⟨hnd', hlt', ?_, ?_, ?_, ?_, ?_⟩
      · show F.ps.length = 2 * N + 1
        rw [hF, commitAndFlag_ps_length, commitAndFlag_ps_length, hlen2]
      · show F.ctxs = _
        rw [hF, commitAndFlag_ctxs, commitAndFlag_ctxs, Heap.setCtx_ctxs,
          Heap.logEv_ctxs, commitAndFlag_ctxs, hctx]
        rw [slotsOf_append_rej N applied i v hni hv, hfc', if_pos hv, hfr2, hfr0]
        simp
      · show (match firstRejectV (applied ++ [(i, v)]) with
          | some w => F.get N = rejTarget w
          | none => if fulfilCount (applied ++ [(i, v)]) = N
              then F.get N = fulTarget (slotsOf N (applied ++ [(i, v)]))
              else F.get N = dPimpl)
        rw [hfr2]
        show F.get N = rejTarget v
        exact hFN
      · intro k hk
        by_cases hki : k = i
        · subst hki
          rw [hlookI]
          show F.get k = doneInput N k v
          rw [hFne k (by omega) (by omega), hci]
        · rw [hlookNe k (fun he => hki he.symm)]
          have hx := inv.inputs k hk
          rcases hlk : lookupV applied k with _ | w
          · rw [hlk] at hx
            show F.get k = freshInput N k
            rw [hFne k (by omega) (by omega), hcother k hki]
            exact hx
          · rw [hlk] at hx
            show F.get k = doneInput N k w
            rw [hFne k (by omega) (by omega), hcother k hki]
            exact hx
      · intro k hk
        by_cases hki : k = i
        · subst hki
          rw [hlookI]
          show F.get (N + 1 + k) = doneDep k
          exact hFd
        · rw [hlookNe k (fun he => hki he.symm)]
          have hx := inv.deps k hk
          rcases hlk : lookupV applied k with _ | w
          · rw [hlk] at hx
            show F.get (N + 1 + k) = freshDep k
            rw [hFne _ (by omega) (by omega), hcother _ (by omega)]
            exact hx
          · rw [hlk] at hx
            show F.get (N + 1 + k) = doneDep k
            rw [hFne _ (by omega) (by omega), hcother _ (by omega)]
            exact hx
  · -- a fulfilment
    by_cases hcnt : N - fulfilCount applied = 1
    · -- the last outstanding input: the combined promise fulfils
      have hfr0 : firstRejectV applied = none := by
        rcases hy : firstRejectV applied with _ | r
        · rfl
        · exfalso
          have := firstRejectV_some_count applied r hy
          omega
      have hfcN1 : fulfilCount applied = N - 1 := by omega
      have htN : h.get N = dPimpl := by
        have hx := inv.target
        rw [hfr0] at hx
        rw [if_neg (by omega)] at hx
        exact hx
      have hstep : settleF hT (fuel + 4) (commitAndFlag h i v) (N + 1 + i) v false
          = (.ok (), commitAndFlag (commitAndFlag
              ((((commitAndFlag h i v).logEv (.invoke (N + 1 + i) true v)).setCtx 0
                  fun c => { c with values := c.values.set i v }).setCtx 0
                  fun c => { c with count := 0 })
              N (.vec (((commitAndFlag h i v).getCtx 0).values.set i v)))
              (N + 1 + i) .nullV) :=
        settle_allFulfil_last hT fuel (commitAndFlag h i v) (N + 1 + i) 0 i N v
          (by rw [hcd]; rfl) (by rw [hcd]; rfl) hv
          (by rw [hcctx0, hget0]; show N - fulfilCount applied = 1; omega)
          (by rw [hcctx0, hget0]) hccl (by omega)
          (by rw [hcN, htN]; rfl) (by rw [hcN, htN]; rfl) (by rw [hcN, htN]; rfl)
          (by rw [hcN, htN]; rfl) (by rw [hcN, htN]; rfl)
      have hvals : ((commitAndFlag h i v).getCtx 0).values.set i v
          = (slotsOf N applied).set i v := by
        rw [hcctx0, hget0]
      rw [hvals] at hstep
      set F := commitAndFlag (commitAndFlag
          ((((commitAndFlag h i v).logEv (.invoke (N + 1 + i) true v)).setCtx 0
              fun c => { c with values := c.values.set i v }).setCtx 0
              fun c => { c with count := 0 })
          N (.vec ((slotsOf N applied).set i v)))
          (N + 1 + i) Val.nullV with hF
      have hfe : settleF hT (fuel + 6) h i v true = (.ok (), F) := by
        rw [hprop, hstep]
      have hlen2 : ((((commitAndFlag h i v).logEv (.invoke (N + 1 + i) true v)).setCtx 0
          fun c => { c with values := c.values.set i v }).setCtx 0
          fun c => { c with count := 0 }).ps.length = 2 * N + 1 := by
        rw [Heap.setCtx_ps_length, Heap.setCtx_ps_length, Heap.logEv_ps_length,
          commitAndFlag_ps_length, hlen]
      have hFne : ∀ j, ¬ j = N + 1 + i → ¬ j = N →
          F.get j = (commitAndFlag h i v).get j := by
        intro j hj hjN
        rw [hF, commitAndFlag_get_ne _ _ _ _ hj, commitAndFlag_get_ne _ _ _ _ hjN,
          Heap.setCtx_get, Heap.setCtx_get, Heap.logEv_get]
      have hslots : slotsOf N (applied ++ [(i, v)]) = (slotsOf N applied).set i v := by
        rw [slotsOf_append N applied i v hni, if_neg hv]
      have hFN : F.get N = fulTarget (slotsOf N (applied ++ [(i, v)])) := by
        rw [hF, commitAndFlag_get_ne _ _ _ _ (by omega), commitAndFlag_get,
          if_pos ⟨rfl, by rw [hlen2]; omega⟩]
        rw [Heap.setCtx_get, Heap.setCtx_get, Heap.logEv_get, hcN, htN, hslots]
        simp [fulTarget, dPimpl, tyOf]
      have hFd : F.get (N + 1 + i) = doneDep i := by
        rw [hF, commitAndFlag_get,
          if_pos ⟨rfl, by rw [commitAndFlag_ps_length, hlen2]; omega⟩]
        rw [commitAndFlag_get_ne _ _ _ _ (by omega), Heap.setCtx_get, Heap.setCtx_get,
          Heap.logEv_get, hcd]
        simp [freshDep, doneDep, dPimpl, aFulfilCb, aRejectCb, tyOf]
      refine ⟨by rw [hfe], ?_⟩
      rw [hfe]
      have hfr2 : firstRejectV (applied ++ [(i, v)]) = none := by
        rw [firstRejectV_append, hfr0]
        simp [hv]
      have hfcN : fulfilCount (applied ++ [(i, v)]) = N := by
        rw [hfc', if_neg hv]
        omega
      refine ⟨hnd', hlt', ?_, ?_, ?_, ?_, ?_⟩
      · show F.ps.length = 2 * N + 1
        rw [hF, commitAndFlag_ps_length, commitAndFlag_ps_length, hlen2]
      · show F.ctxs = _
        rw [hF, commitAndFlag_ctxs, commitAndFlag_ctxs, Heap.setCtx_ctxs,
          Heap.setCtx_ctxs, Heap.logEv_ctxs, commitAndFlag_ctxs, hctx]
        rw [hslots, hfcN, hfr2, hfr0]
        simp
      · show (match firstRejectV (applied ++ [(i, v)]) with
          | some w => F.get N = rejTarget w
          | none => if fulfilCount (applied ++ [(i, v)]) = N
              then F.get N = fulTarget (slotsOf N (applied ++ [(i, v)]))
              else F.get N = dPimpl)
        rw [hfr2]
        rw [if_pos hfcN]
        exact hFN
      · intro k hk
        by_cases hki : k = i
        · subst hki
          rw [hlookI]
          show F.get k = doneInput N k v
          rw [hFne k (by omega) (by omega), hci]
        · rw [hlookNe k (fun he => hki he.symm)]
          have hx := inv.inputs k hk
          rcases hlk : lookupV applied k with _ | w
          · rw [hlk] at hx
            show F.get k = freshInput N k
            rw [hFne k (by omega) (by omega), hcother k hki]
            exact hx
          · rw [hlk] at hx
            show F.get k = doneInput N k w
            rw [hFne k (by omega) (by omega), hcother k hki]
            exact hx
      · intro k hk
        by_cases hki : k = i
        · subst hki
          rw [hlookI]
          show F.get (N + 1 + k) = doneDep k
          exact hFd
        · rw [hlookNe k (fun he => hki he.symm)]
          have hx := inv.deps k hk
          rcases hlk : lookupV applied k with _ | w
          · rw [hlk] at hx
            show F.get (N + 1 + k) = freshDep k
            rw [hFne _ (by omega) (by omega), hcother _ (by omega)]
            exact hx
          · rw [hlk] at hx
            show F.get (N + 1 + k) = doneDep k
            rw [hFne _ (by omega) (by omega), hcother _ (by omega)]
            exact hx
    · -- not the last input: slot written, count decremented
      have hstep : settleF hT (fuel + 4) (commitAndFlag h i v) (N + 1 + i) v false
          = (.ok (), commitAndFlag
              ((((commitAndFlag h i v).logEv (.invoke (N + 1 + i) true v)).setCtx 0
                  fun c => { c with values := c.values.set i v }).setCtx 0
                  fun c => { c with count := c.count - 1 })
              (N + 1 + i) .nullV) := by
        rw [show fuel + 4 = fuel + 1 + 3 from rfl]
        exact settle_allFulfil_dep hT (fuel + 1) (commitAndFlag h i v) (N + 1 + i) 0 i v
          (by rw [hcd]; rfl) (by rw [hcd]; rfl) hv
          (by rw [hcctx0, hget0]; show ¬ N - fulfilCount applied = 1; omega) hccl
      set F := commitAndFlag
          ((((commitAndFlag h i v).logEv (.invoke (N + 1 + i) true v)).setCtx 0
              fun c => { c with values := c.values.set i v }).setCtx 0
              fun c => { c with count := c.count - 1 })
          (N + 1 + i) Val.nullV with hF
      have hfe : settleF hT (fuel + 6) h i v true = (.ok (), F) := by
        rw [hprop, hstep]
      have hlen2 : ((((commitAndFlag h i v).logEv (.invoke (N + 1 + i) true v)).setCtx 0
          fun c => { c with values := c.values.set i v }).setCtx 0
          fun c => { c with count := c.count - 1 }).ps.length = 2 * N + 1 := by
        rw [Heap.setCtx_ps_length, Heap.setCtx_ps_length, Heap.logEv_ps_length,
          commitAndFlag_ps_length, hlen]
      have hFne : ∀ j, ¬ j = N + 1 + i → F.get j = (commitAndFlag h i v).get j := by
        intro j hj
        rw [hF, commitAndFlag_get_ne _ _ _ _ hj, Heap.setCtx_get, Heap.setCtx_get,
          Heap.logEv_get]
      have hslots : slotsOf N (applied ++ [(i, v)]) = (slotsOf N applied).set i v := by
        rw [slotsOf_append N applied i v hni, if_neg hv]
      have hFd : F.get (N + 1 + i) = doneDep i := by
        rw [hF, commitAndFlag_get, if_pos ⟨rfl, by rw [hlen2]; omega⟩]
        rw [Heap.setCtx_get, Heap.setCtx_get, Heap.logEv_get, hcd]
        simp [freshDep, doneDep, dPimpl, aFulfilCb, aRejectCb, tyOf]
      refine ⟨by rw [hfe], ?_⟩
      rw [hfe]
      have hfr2 : firstRejectV (applied ++ [(i, v)]) = firstRejectV applied := by
        rw [firstRejectV_append]
        rcases firstRejectV applied with _ | w
        · simp [hv]
        · rfl
      have hfcne : ¬ fulfilCount (applied ++ [(i, v)]) = N := by
        rw [hfc', if_neg hv]
        omega
      refine ⟨hnd', hlt', ?_, ?_, ?_, ?_, ?_⟩
      · show F.ps.length = 2 * N + 1
        rw [hF, commitAndFlag_ps_length, hlen2]
      · show F.ctxs = _
        rw [hF, commitAndFlag_ctxs, Heap.setCtx_ctxs, Heap.setCtx_ctxs,
          Heap.logEv_ctxs, commitAndFlag_ctxs, hctx]
        rw [hslots, hfc', if_neg hv, hfr2]
        simp only [List.getD]
        show _ = [{ values := (slotsOf N applied).set i v, count := N - (fulfilCount applied + 1), rejected := (firstRejectV applied).isSome, target := N }]
        rw [show N - (fulfilCount applied + 1) = N - fulfilCount applied - 1 from by omega]
        rfl
      · show (match firstRejectV (applied ++ [(i, v)]) with
          | some w => F.get N = rejTarget w
          | none => if fulfilCount (applied ++ [(i, v)]) = N
              then F.get N = fulTarget (slotsOf N (applied ++ [(i, v)]))
              else F.get N = dPimpl)
        rw [hfr2]
        have hgN : F.get N = h.get N := by
          rw [hFne N (by omega), hcN]
        have hx := inv.target
        rcases hy : firstRejectV applied with _ | w
        · rw [hy] at hx
          rw [if_neg (by omega)] at hx
          rw [if_neg hfcne]
          rw [hgN]
          exact hx
        · rw [hy] at hx
          rw [hgN]
          exact hx
      · intro k hk
        by_cases hki : k = i
        · subst hki
          rw [hlookI]
          show F.get k = doneInput N k v
          rw [hFne k (by omega), hci]
        · rw [hlookNe k (fun he => hki he.symm)]
          have hx := inv.inputs k hk
          rcases hlk : lookupV applied k with _ | w
          · rw [hlk] at hx
            show F.get k = freshInput N k
            rw [hFne k (by omega), hcother k hki]
            exact hx
          · rw [hlk] at hx
            show F.get k = doneInput N k w
            rw [hFne k (by omega), hcother k hki]
            exact hx
      · intro k hk
        by_cases hki : k = i
        · subst hki
          rw [hlookI]
          show F.get (N + 1 + k) = doneDep k
          exact hFd
        · rw [hlookNe k (fun he => hki he.symm)]
          have hx := inv.deps k hk
          rcases hlk : lookupV applied k with _ | w
          · rw [hlk] at hx
            show F.get (N + 1 + k) = freshDep k
            rw [hFne _ (by omega), hcother _ (by omega)]
            exact hx
          · rw [hlk] at hx
            show F.get (N + 1 + k) = doneDep k
            rw [hFne _ (by omega), hcother _ (by omega)]
            exact hx

/-- Running a sequence of distinct in-range input settles preserves the
`Promise::all` invariant and never throws. -/
theorem AInv_run (hT : Bool) (N : Nat) : ∀ (ops applied : List (Nat × Val)) (h : Heap),
    AInv N applied h →
    (∀ pr ∈ ops, pr.1 < N) →
    ((applied ++ ops).map Prod.fst).Nodup →
    (runOps hT 6 h ops).1 = .ok ()
    ∧ AInv N (applied ++ ops) (runOps hT 6 h ops).2 := by
  intro ops
  induction ops with
  | nil =>
    intro applied h inv _ _
    refine ⟨rfl, ?_⟩
    show AInv N (applied ++ []) h
    rw [List.append_nil]
    exact inv
  | cons pr rest ih =>
    intro applied h inv hlt hnd
    obtain ⟨i, v⟩ := pr
    have hi : i < N := hlt (i, v) (List.mem_cons_self _ _)
    have hni : lookupV applied i = none := by
      rw [lookupV_eq_none]
      intro hmem
      rw [List.map_append] at hnd
      have hdisj := (List.nodup_append.mp hnd).2.2
      exact hdisj hmem (by simp)
    have hstep := AInv_step hT 0 N applied h inv i v hi hni
    simp only [Nat.zero_add] at hstep
    rcases hset : settleF hT 6 h i v true with ⟨r, h2⟩
    rw [hset] at hstep
    rcases r with e | u
    · exact absurd hstep.1 (by simp)
    · have hinv2 : AInv N (applied ++ [(i, v)]) h2 := hstep.2
      have hlt2 : ∀ pr ∈ rest, pr.1 < N := fun pr hpr =>
        hlt pr (List.mem_cons_of_mem _ hpr)
      have hnd2 : (((applied ++ [(i, v)]) ++ rest).map Prod.fst).Nodup := by
        rw [List.append_assoc]
        exact hnd
      have hres := ih (applied ++ [(i, v)]) h2 hinv2 hlt2 hnd2
      have hrun : runOps hT 6 h ((i, v) :: rest) = runOps hT 6 h2 rest := by
        simp only [runOps]
        rw [hset]
      rw [hrun]
      refine ⟨hres.1, ?_⟩
      have := hres.2
      rw [List.append_assoc] at this
      exact this

theorem getD_replicate (n : Nat) (j : Nat) {α : Type} (a : α) :
    (List.replicate n a).getD j a = a := by
  by_cases hj : j < n
  · rw [List.getD_eq_getElem _ _ (by simpa using hj)]
    exact List.getElem_replicate _ _
  · exact List.getD_eq_default _ _ (by simpa using Nat.le_of_not_lt hj)

theorem slotsOf_nil (N : Nat) : slotsOf N [] = List.replicate N Val.unset := by
  apply List.ext_getElem
  · simp [slotsOf]
  · intro n h1 h2
    simp [slotsOf, slotVal, lookupV, List.find?]

/-- The attachment loop of `Promise::all` builds the scenario heap: each
step wires input `k` to the fresh dependent `N+1+k`. -/
theorem attachAll_build (hT : Bool) (N : Nat) : ∀ (m k : Nat) (h : Heap),
    k + m = N →
    h.ps.length = N + 1 + k →
    h.ctxs = [{ values := List.replicate N Val.unset, count := N, rejected := false, target := N }] →
    (∀ j, j < k → h.get j = freshInput N j) →
    (∀ j, k ≤ j → j < N → h.get j = dPimpl) →
    h.get N = dPimpl →
    (∀ j, j < k → h.get (N + 1 + j) = freshDep j) →
    (attachAll hT 2 h N 0 (List.range' k m) k).1 = .ok N
    ∧ ((attachAll hT 2 h N 0 (List.range' k m) k).2.ps.length = 2 * N + 1
      ∧ (attachAll hT 2 h N 0 (List.range' k m) k).2.ctxs
          = [{ values := List.replicate N Val.unset, count := N, rejected := false, target := N }]
      ∧ (∀ j, j < N → (attachAll hT 2 h N 0 (List.range' k m) k).2.get j = freshInput N j)
      ∧ (attachAll hT 2 h N 0 (List.range' k m) k).2.get N = dPimpl
      ∧ (∀ j, j < N → (attachAll hT 2 h N 0 (List.range' k m) k).2.get (N + 1 + j) = freshDep j)) := by
  intro m
  induction m with
  | zero =>
    intro k h hkm hlen hctx hfin hfree hN hdeps
    have hkN : k = N := by omega
    refine ⟨rfl, ?_, ?_, ?_, ?_, ?_⟩
    · show h.ps.length = 2 * N + 1
      omega
    · exact hctx
    · intro j hj
      exact hfin j (by omega)
    · exact hN
    · intro j hj
      exact hdeps j (by omega)
  | succ m ih =>
    intro k h hkm hlen hctx hfin hfree hN hdeps
    have hkN : k < N := by omega
    rw [List.range'_succ]
    simp only [attachAll]
    rw [thenF_unsettled hT 1 h k _ _
      (by rw [hfree k (le_refl k) hkN]; rfl)
      (by rw [hfree k (le_refl k) hkN]; rfl)
      (by omega) rfl]
    dsimp only
    have hstep := ih (k + 1) (thenHeap h k (some (aFulfilCb 0 k)) (some (aRejectCb 0)))
      (by omega)
      (by rw [thenHeap_ps_length, hlen]; omega)
      (by rw [thenHeap_ctxs, hctx])
      ?_ ?_ ?_ ?_
    · exact hstep
    · intro j hj
      by_cases hjk : j = k
      · subst hjk
        rw [thenHeap_get_i h j _ _ (by omega)]
        rw [if_neg (by simp [thenRv, aFulfilCb])]
        rw [hfree j (le_refl j) hkN, hlen]
        simp [freshInput, dPimpl]
      · rw [thenHeap_get_other h k _ _ j hjk (by omega)]
        exact hfin j (by omega)
    · intro j hj1 hj2
      rw [thenHeap_get_other h k _ _ j (by omega) (by omega)]
      exact hfree j (by omega) hj2
    · rw [thenHeap_get_other h k _ _ N (by omega) (by omega)]
      exact hN
    · intro j hj
      by_cases hjk : j = k
      · subst hjk
        rw [show N + 1 + j = h.ps.length from by omega]
        rw [thenHeap_get_new h j _ _ (by omega)]
        rfl
      · rw [thenHeap_get_other h k _ _ (N + 1 + j) (by omega) (by omega)]
        exact hdeps j (by omega)

/-- `Promise::all` on `N ≥ 1` fresh roots builds the scenario heap in the
invariant state with nothing yet applied. -/
theorem allScenario_inv (hT : Bool) (N : Nat) (hN : 0 < N) :
    (allScenario hT N).1 = .ok N ∧ AInv N [] (allScenario hT N).2 := by
  have hne : (List.range N).isEmpty = false := by
    rw [List.isEmpty_eq_false_iff_exists_mem]
    exact ⟨0, List.mem_range.mpr hN⟩
  have hb := attachAll_build hT N N 0
    ({ ps := List.replicate N dPimpl ++ [{ dPimpl with onFulfil := none, onReject := none }],
       ctxs := [] ++ [{ values := List.replicate (List.range N).length Val.unset,
                        count := (List.range N).length, rejected := false,
                        target := (List.replicate N dPimpl).length }] } : Heap)
    (by omega) (by simp) (by simp) (by omega) ?hfree ?hN ?hdeps
  case hfree =>
    intro j _ hj
    show (List.replicate N dPimpl ++ [_]).getD j dPimpl = dPimpl
    rw [list_getD_append, if_pos (by simpa using hj), getD_replicate]
  case hN =>
    show (List.replicate N dPimpl ++ [_]).getD N dPimpl = dPimpl
    rw [list_getD_append, if_neg (by simp)]
    simp [dPimpl]
  case hdeps =>
    intro j hj
    omega
  · have heq : allScenario hT N
        = attachAll hT 2
          ({ ps := List.replicate N dPimpl ++ [{ dPimpl with onFulfil := none, onReject := none }],
             ctxs := [] ++ [{ values := List.replicate (List.range N).length Val.unset,
                              count := (List.range N).length, rejected := false,
                              target := (List.replicate N dPimpl).length }] } : Heap)
          (List.replicate N dPimpl).length 0 (List.range N) 0 := by
      simp only [allScenario, mkAll, newPromise]
      rw [hne]
      rfl
    rw [heq]
    have hlenrep : (List.replicate N dPimpl).length = N := List.length_replicate _ _
    rw [List.length_range, hlenrep, List.range_eq_range']
    have hb2 := hb
    rw [List.length_range, hlenrep] at hb2
    obtain ⟨h1, h2, h3, h4, h5, h6⟩ := hb2
    refine ⟨h1, ?_⟩
    refine ⟨by simp, by simp, h2, ?_, ?_, ?_, ?_⟩
    · rw [h3]
      rw [show firstRejectV [] = none from rfl]
      show _ = [{ values := slotsOf N [], count := N - fulfilCount [], rejected := false, target := N }]
      rw [slotsOf_nil, show fulfilCount [] = 0 from rfl, Nat.sub_zero]
    · rw [show firstRejectV [] = none from rfl]
      show if fulfilCount [] = N then _ = fulTarget (slotsOf N []) else _ = dPimpl
      rw [show fulfilCount [] = 0 from rfl, if_neg (by omega)]
      exact h5
    · intro k hk
      show _ = freshInput N k
      exact h4 k hk
    · intro k hk
      show _ = freshDep k
      exact h6 k hk

theorem mem_lookupV : ∀ (l : List (Nat × Val)) (k : Nat) (v : Val),
    (l.map Prod.fst).Nodup → (k, v) ∈ l → lookupV l k = some v := by
  intro l
  induction l with
  | nil => intro k v _ hm; simp at hm
  | cons a as ih =>
    intro k v hnd hm
    rcases List.mem_cons.mp hm with he | hm2
    · rw [← he]
      simp [lookupV, List.find?_cons]
    · have hknd : a.1 ∉ as.map Prod.fst := by
        rw [List.map_cons] at hnd
        exact (List.nodup_cons.mp hnd).1
      have hak : ¬ a.1 = k := by
        intro he2
        exact hknd (he2 ▸ List.mem_map.mpr ⟨(k, v), hm2, rfl⟩)
      have hnd2 : (as.map Prod.fst).Nodup := by
        rw [List.map_cons] at hnd
        exact (List.nodup_cons.mp hnd).2
      have hdec : decide (a.1 = k) = false := by simp [hak]
      simp only [lookupV, List.find?_cons, hdec]
      exact ih k v hnd2 hm2

theorem lookupV_some_mem (l : List (Nat × Val)) (k : Nat) (v : Val)
    (hl : lookupV l k = some v) : (k, v) ∈ l := by
  simp only [lookupV, Option.map_eq_some'] at hl
  obtain ⟨pr, hfind, hv⟩ := hl
  obtain ⟨hmem, hprop⟩ := find?_some_prop _ l pr hfind
  simp only [decide_eq_true_eq] at hprop
  have : pr = (k, v) := by
    obtain ⟨a, b⟩ := pr
    simp only at hprop hv
    rw [hprop, hv]
  exact this ▸ hmem

/-- The per-slot contents are independent of the order in which the inputs
settled. -/
theorem slotsOf_perm (N : Nat) (ops ops2 : List (Nat × Val))
    (hperm : ops.Perm ops2) (hnd : (ops.map Prod.fst).Nodup) :
    slotsOf N ops = slotsOf N ops2 := by
  have hnd2 : (ops2.map Prod.fst).Nodup := (hperm.map Prod.fst).nodup_iff.mp hnd
  have hlk : ∀ k, lookupV ops k = lookupV ops2 k := by
    intro k
    rcases hl : lookupV ops k with _ | v
    · rcases hl2 : lookupV ops2 k with _ | v2
      · rfl
      · exfalso
        have := lookupV_some_mem ops2 k v2 hl2
        have hmem := hperm.symm.subset this
        rw [mem_lookupV ops k v2 hnd hmem] at hl
        exact absurd hl (by simp)
    · have := lookupV_some_mem ops k v hl
      exact (mem_lookupV ops2 k v hnd2 (hperm.subset this)).symm
  simp only [slotsOf]
  apply List.map_congr_left
  intro k _
  simp only [slotVal, hlk k]

/-- C6: `Promise::all` over `N` fresh inputs, driven by an arbitrary
sequence of settles of distinct inputs: the driver never throws; the
combined promise fulfils iff every input fulfilled, and then holds the
vector whose position `i` is input `i`'s value — a sequence depending only
on the set of settles, not their order (permutation invariance of the
slots); if any input rejected it holds the first observed rejection error
as an undelivered rejection, and while inputs are missing (and none
rejected) it is still unsettled; `all` of zero inputs fulfils immediately
with the empty sequence. -/
theorem C6_promise_all (hT : Bool) (N : Nat) (ops : List (Nat × Val))
    (hN : 0 < N)
    (hnd : (ops.map Prod.fst).Nodup)
    (hlt : ∀ pr ∈ ops, pr.1 < N) :
    (allScenario hT N).1 = .ok N
    ∧ (runOps hT 6 (allScenario hT N).2 ops).1 = .ok ()
    ∧ (match firstRejectV ops with
       | some r => (runOps hT 6 (allScenario hT N).2 ops).2.get N = rejTarget r
       | none =>
         if fulfilCount ops = N
         then (runOps hT 6 (allScenario hT N).2 ops).2.get N
            = fulTarget (slotsOf N ops)
         else (runOps hT 6 (allScenario hT N).2 ops).2.get N = dPimpl)
    ∧ (∀ ops2, ops.Perm ops2 → slotsOf N ops = slotsOf N ops2)
    ∧ (allScenario hT 0).1 = .ok 0
    ∧ (allScenario hT 0).2.get 0 = fulTarget [] := by
  obtain ⟨h1, hinv⟩ := allScenario_inv hT N hN
  have hrun := AInv_run hT N ops [] (allScenario hT N).2 hinv hlt hnd
  exact ⟨h1, hrun.1, hrun.2.target,
    fun ops2 hp => slotsOf_perm N ops ops2 hp hnd, rfl, rfl⟩

/-- Witness for C6: two inputs settled out of order (input 1 first). -/
theorem C6_promise_all_witness :
    (allScenario true 2).1 = .ok 2
    ∧ (runOps true 6 (allScenario true 2).2 [(1, .int 5), (0, .int 7)]).1 = .ok ()
    ∧ (match firstRejectV [(1, Val.int 5), (0, Val.int 7)] with
       | some r => (runOps true 6 (allScenario true 2).2
            [(1, .int 5), (0, .int 7)]).2.get 2 = rejTarget r
       | none =>
         if fulfilCount [(1, Val.int 5), (0, Val.int 7)] = 2
         then (runOps true 6 (allScenario true 2).2 [(1, .int 5), (0, .int 7)]).2.get 2
            = fulTarget (slotsOf 2 [(1, Val.int 5), (0, Val.int 7)])
         else (runOps true 6 (allScenario true 2).2
            [(1, .int 5), (0, .int 7)]).2.get 2 = dPimpl)
    ∧ (∀ ops2, List.Perm [(1, Val.int 5), (0, Val.int 7)] ops2 →
        slotsOf 2 [(1, Val.int 5), (0, Val.int 7)] = slotsOf 2 ops2)
    ∧ (allScenario true 0).1 = .ok 0
    ∧ (allScenario true 0).2.get 0 = fulTarget [] :=
  C6_promise_all true 2 [(1, .int 5), (0, .int 7)] (by decide) (by decide) (by decide)
